import Mathlib

/-!
A shallow embedding of the core of `server.py` (a Yeelight home-automation
control plane): the registry reconciler (`build_config` and its helpers),
the persisted state store (`update_persisted`, `get_persisted`,
`read_state_for`), the routine scheduler (`start_routine`, `stop_routine`,
the interpolation loop of `_routine_worker`), and the presence monitor
(`_presence_loop` body).

Modelling conventions:
* Python dicts are insertion-ordered association lists `List (String × α)`;
  `aget` / `aset` / `apop` mirror `d.get(k)`, `d[k] = v` and `d.pop(k)`
  (assignment to an existing key keeps its position, a new key is appended).
* JSON values occurring in state dictionaries are the inductive `JVal`;
  Python `None` is `JVal.null`.
* Machine integers are `Int`; Python `//`-style shifts in `_rgb_int_to_list`
  are floor division (`Int.fdiv`) and `& 255` is `Int.emod _ 256`.
* Python truthiness of an optional string (`if bid:`) is captured by `tval`,
  which collapses both `None` and `""` to `none`.
* `float` interpolation in `_routine_worker` is modelled over `ℚ`; Python's
  `round` is modelled by Mathlib's `round` (the two agree except at exact
  ties, which do not occur in the configurations reasoned about below).
* Threads are sequentialized: the first visible action of a routine worker
  (setting its running flag) is folded into an accepted `start_routine`, and
  the worker's `finally` block is the separate transition `finish_routine`.
-/

/-- JSON-like values stored in the persisted state store; `null` models
Python `None`. -/
inductive JVal where
  | null : JVal
  | s : String → JVal
  | i : Int → JVal
  | arr : List JVal → JVal

mutual

def JVal.decEq : (a b : JVal) → Decidable (a = b)
  | JVal.null, JVal.null => isTrue rfl
  | JVal.null, JVal.s _ => isFalse (fun h => nomatch h)
  | JVal.null, JVal.i _ => isFalse (fun h => nomatch h)
  | JVal.null, JVal.arr _ => isFalse (fun h => nomatch h)
  | JVal.s _, JVal.null => isFalse (fun h => nomatch h)
  | JVal.s a, JVal.s b =>
    if h : a = b then isTrue (by rw [h]) else isFalse (fun q => h (JVal.s.inj q))
  | JVal.s _, JVal.i _ => isFalse (fun h => nomatch h)
  | JVal.s _, JVal.arr _ => isFalse (fun h => nomatch h)
  | JVal.i _, JVal.null => isFalse (fun h => nomatch h)
  | JVal.i _, JVal.s _ => isFalse (fun h => nomatch h)
  | JVal.i a, JVal.i b =>
    if h : a = b then isTrue (by rw [h]) else isFalse (fun q => h (JVal.i.inj q))
  | JVal.i _, JVal.arr _ => isFalse (fun h => nomatch h)
  | JVal.arr _, JVal.null => isFalse (fun h => nomatch h)
  | JVal.arr _, JVal.s _ => isFalse (fun h => nomatch h)
  | JVal.arr _, JVal.i _ => isFalse (fun h => nomatch h)
  | JVal.arr a, JVal.arr b =>
    match JVal.decEqList a b with
    | isTrue h => isTrue (by rw [h])
    | isFalse h => isFalse (fun q => h (JVal.arr.inj q))

def JVal.decEqList : (a b : List JVal) → Decidable (a = b)
  | [], [] => isTrue rfl
  | [], _ :: _ => isFalse (fun h => nomatch h)
  | _ :: _, [] => isFalse (fun h => nomatch h)
  | x :: xs, y :: ys =>
    match JVal.decEq x y, JVal.decEqList xs ys with
    | isTrue h1, isTrue h2 => isTrue (by rw [h1, h2])
    | isFalse h1, _ => isFalse (fun q => h1 (List.cons.inj q).1)
    | _, isFalse h2 => isFalse (fun q => h2 (List.cons.inj q).2)

end

instance : DecidableEq JVal := JVal.decEq

/-- A Python dict with string keys, in insertion order. -/
abbrev Assoc (α : Type) := List (String × α)

/-- `d.get(k)`: value of the first (with unique keys, the only) entry. -/
def aget {α : Type} : Assoc α → String → Option α
  | [], _ => none
  | p :: m, k => if p.1 = k then some p.2 else aget m k

/-- `k in d`. -/
def hasKey {α : Type} : Assoc α → String → Bool
  | [], _ => false
  | p :: m, k => p.1 = k || hasKey m k

/-- `d[k] = v`: replaces the entry in place if the key exists, otherwise
appends a new entry at the end. -/
def aset {α : Type} : Assoc α → String → α → Assoc α
  | [], k, v => [(k, v)]
  | p :: m, k, v => if p.1 = k then (k, v) :: m else p :: aset m k v

/-- `d.pop(k, None)`. -/
def apop {α : Type} : Assoc α → String → Assoc α
  | [], _ => []
  | p :: m, k => if p.1 = k then apop m k else p :: apop m k

/-- The keys of a dict, in insertion order. -/
def akeys {α : Type} (m : Assoc α) : List String :=
  m.map (·.1)

/-- Keys are pairwise distinct, as they are for an actual Python dict. -/
def NodupKeys {α : Type} (m : Assoc α) : Prop :=
  (akeys m).Nodup

instance nodupKeysDecidable {α : Type} (m : Assoc α) : Decidable (NodupKeys m) :=
  inferInstanceAs (Decidable ((akeys m).Nodup))

/-- Python truthiness of an optional string: `None` and `""` are falsy,
anything else stands for itself. -/
def tval : Option String → Option String
  | none => none
  | some s => if s = "" then none else some s

/-- Accumulate decimal digits; any non-digit character fails. -/
def digitsToNatAux : List Char → Nat → Option Nat
  | [], acc => some acc
  | c :: cs, acc =>
    if c.isDigit then digitsToNatAux cs (acc * 10 + (c.toNat - 48)) else none

/-- Python `int(str)` on a plain decimal literal with an optional sign.
(The `int()` tolerance for surrounding whitespace and digit-group
underscores is not modelled; no reasoned-about input uses it.) -/
def pyInt (s : String) : Option Int :=
  match s.data with
  | [] => none
  | '-' :: cs =>
    match cs with
    | [] => none
    | _ => (digitsToNatAux cs 0).map (fun n => -(n : Int))
  | '+' :: cs =>
    match cs with
    | [] => none
    | _ => (digitsToNatAux cs 0).map (fun n => (n : Int))
  | cs => (digitsToNatAux cs 0).map (fun n => (n : Int))

/-- `_to_int(value)`: `int(value)` returning `None` on `TypeError` /
`ValueError`. -/
def toIntJ : JVal → Option Int
  | JVal.i n => some n
  | JVal.s str => pyInt str
  | _ => none

/-- `clamp(v, lo, hi)` from the source (`max(lo, min(hi, v))`). -/
def clamp (v lo hi : Int) : Int := max lo (min hi v)

/-- `_rgb_int_to_list(rgb_int)`: unpack a packed 24-bit colour.  Python's
`(n >> k) & 255` on arbitrary ints is floor division then mod 256. -/
def rgbIntToList (n : Int) : List JVal :=
  [JVal.i ((Int.fdiv n 65536).emod 256),
   JVal.i ((Int.fdiv n 256).emod 256),
   JVal.i (n.emod 256)]

/-- `_normalize_rgb(value)`: a 3-element list is clamped element-wise to
`[0, 255]` (non-integer elements raise, giving `None`); any other value is
converted with `int()` and unpacked, yielding `None` when the conversion
fails. -/
def clampRgbList : List JVal → Option (List JVal)
  | [] => some []
  | JVal.i n :: vs => (clampRgbList vs).map (fun ws => JVal.i (max 0 (min 255 n)) :: ws)
  | _ :: _ => none

/-- Continuation of `_normalize_rgb`: see `normalizeRgb`. -/
def normalizeRgb (value : JVal) : JVal :=
  match value with
  | JVal.arr vs =>
    if vs.length = 3 then
      match clampRgbList vs with
      | some ws => JVal.arr ws
      | none => JVal.null
    else
      match toIntJ (JVal.arr vs) with
      | some n => JVal.arr (rgbIntToList n)
      | none => JVal.null
  | v =>
    match toIntJ v with
    | some n => JVal.arr (rgbIntToList n)
    | none => JVal.null

/-- `_merge_state(live, persisted)`: persisted snapshot overlaid with every
non-`None` live field. -/
def mergeState (live persisted : Assoc JVal) : Assoc JVal :=
  if persisted = [] then live
  else if live = [] then persisted
  else live.foldl (fun merged p =>
    if p.2 = JVal.null then merged else aset merged p.1 p.2) persisted

/-- `value.split(":")`: split on every colon. -/
def splitOnColonAux : List Char → List Char → List String
  | [], acc => [String.mk acc.reverse]
  | d :: ds, acc =>
    if d = ':' then String.mk acc.reverse :: splitOnColonAux ds []
    else splitOnColonAux ds (d :: acc)

/-- `value.split(":")` as used by `_parse_time_hhmm`. -/
def splitOnColon (s : String) : List String :=
  splitOnColonAux s.data []

/-- `_parse_time_hhmm(value)`: `"HH:MM"` to minutes past midnight, `none`
for anything malformed or out of range. -/
def parseTimeHhmm (value : String) : Option Int :=
  if value = "" then none
  else
    match splitOnColon value with
    | [h, m] =>
      match pyInt h, pyInt m with
      | some hour, some minute =>
        if hour < 0 ∨ hour > 23 ∨ minute < 0 ∨ minute > 59 then none
        else some (hour * 60 + minute)
      | _, _ => none
    | _ => none

/-- `_time_in_window(now, start, end)`, including the wrap past midnight
when `start > end`. -/
def timeInWindow (nowMinutes startMinutes endMinutes : Int) : Bool :=
  if startMinutes ≤ endMinutes then
    startMinutes ≤ nowMinutes ∧ nowMinutes < endMinutes
  else
    nowMinutes ≥ startMinutes ∨ nowMinutes < endMinutes

/-! ## Registry reconciler (`build_config` and helpers) -/

/-- A registry record: `ip` and `id` entries of a `bulbs.json` value, where
a missing key and a stored `None` both appear as `none`. -/
structure Rec where
  ip : Option String := none
  id : Option String := none
deriving DecidableEq, Repr

/-- A registry: device name to record, in insertion order. -/
abbrev Registry := Assoc Rec

/-- A discovery result entry: `b["ip"]` is always present,
`b.get("capabilities", {}).get("id")` may be absent. -/
structure DiscEntry where
  ip : String
  id : Option String := none
deriving DecidableEq, Repr

/-- An `_index_cfg` lookup: the dict comprehension iterates the registry in
order with later entries overwriting earlier ones, so a lookup returns the
last name whose truthy field equals `x` (and no name for `x = ""`, since
only truthy values are indexed). -/
def byFieldGet (getf : Rec → Option String) (m : Registry) (x : String) :
    Option String :=
  m.foldl (fun acc p => if tval (getf p.2) == some x then some p.1 else acc) none

/-- The `by_id.get(bid)` lookup of `_index_cfg`. -/
def byIdGet (m : Registry) (x : String) : Option String :=
  byFieldGet (fun r => r.id) m x

/-- The `by_ip.get(ip)` lookup of `_index_cfg`. -/
def byIpGet (m : Registry) (x : String) : Option String :=
  byFieldGet (fun r => r.ip) m x

/-- `by_id.get(bid)` where `bid` itself may be `None` (a dict never has a
`None` key, so that lookup misses). -/
def byIdLookup (m : Registry) (bid : Option String) : Option String :=
  match bid with
  | some s => byIdGet m s
  | none => none

/-- Python `a or b` on optional name strings: `a` if truthy, else `b`. -/
def pyOrName (a b : Option String) : Option String :=
  match tval a with
  | some s => some s
  | none => b

/-- `bid[-6:]`: the last (up to) six characters. -/
def lastChars (s : String) (n : Nat) : String :=
  String.mk (s.data.drop (s.data.length - n))

/-- `ip.replace(".", "_")`. -/
def dotsToUnderscores (ip : String) : String :=
  String.mk (ip.data.map (fun c => if c = '.' then '_' else c))

/-- `_new_auto_name(ip, bid)`. -/
def newAutoName (ip : String) (bid : Option String) : String :=
  match tval bid with
  | some b => "bulb_" ++ lastChars b 6
  | none => if ip ≠ "" then "bulb_" ++ dotsToUnderscores ip else "bulb_unknown"

/-- The collision loop `while auto in merged: i += 1; auto = base_i`,
with explicit fuel: `m.length + 1` candidate suffixes always contain a free
one, so the fuel-exhausted fallback is unreachable. -/
def freshNameAux (m : Registry) (base : String) : Nat → Nat → String
  | i, 0 => base ++ "_" ++ toString i
  | i, fuel + 1 =>
    let cand := base ++ "_" ++ toString i
    if hasKey m cand then freshNameAux m base (i + 1) fuel else cand

/-- Auto-name collision avoidance of `build_config` (lines 191-196). -/
def freshName (m : Registry) (base : String) : String :=
  if hasKey m base then freshNameAux m base 2 (m.length + 1) else base

/-- One iteration of the seed overlay loop of `build_config`
(lines 146-151): keep the existing record (or start empty) and overwrite
with the truthy seed fields. -/
def seedStep (merged : Registry) (p : String × Rec) : Registry :=
  let me := (aget merged p.1).getD {}
  let me := if (tval p.2.id).isSome then { me with id := p.2.id } else me
  let me := if (tval p.2.ip).isSome then { me with ip := p.2.ip } else me
  aset merged p.1 me

/-- The seed overlay loop of `build_config` (lines 145-151): every seed name
is ensured present, truthy seed fields overwrite. -/
def seedMerge (cfg seed : Registry) : Registry :=
  seed.foldl seedStep cfg

/-- The alias consolidation of `build_config` (lines 166-176): keep the name
resolved by id, copy missing fields from the name resolved by ip, drop the
latter. -/
def consolidate (merged : Registry) (keep drop : String) : Registry :=
  let kept := (aget merged keep).getD {}
  let dropped := (aget merged drop).getD {}
  let kept := if (tval kept.ip).isNone ∧ (tval dropped.ip).isSome then
    { kept with ip := dropped.ip } else kept
  let kept := if (tval kept.id).isNone ∧ (tval dropped.id).isSome then
    { kept with id := dropped.id } else kept
  apop (aset merged keep kept) drop

/-- Lines 162-178 of `build_config`: when `name_for_id` and `name_for_ip`
both resolve and differ, consolidate the two aliases. -/
def discConsolidate (m : Registry) (e : DiscEntry) : Registry :=
  match tval (byIdLookup m e.id), tval (if e.ip ≠ "" then byIpGet m e.ip else none) with
  | some keep, some drop => if keep ≠ drop then consolidate m keep drop else m
  | _, _ => m

/-- Lines 181-197 of `build_config`: re-resolve the name after the possible
consolidation, patch an existing entry with the freshly discovered id/ip, or
insert a new auto-named entry. -/
def discResolve (m2 : Registry) (e : DiscEntry) : Registry :=
  match tval (pyOrName (byIdLookup m2 e.id) (byIpGet m2 e.ip)) with
  | some name =>
    let ent := (aget m2 name).getD {}
    let ent := if (tval e.id).isSome then { ent with id := e.id } else ent
    let ent := if e.ip ≠ "" then { ent with ip := some e.ip } else ent
    aset m2 name ent
  | none =>
    let auto := freshName m2 (newAutoName e.ip e.id)
    aset m2 auto { ip := some e.ip, id := e.id }

/-- Processing of one discovery entry by `build_config` (lines 158-200).
The id/ip indices are rebuilt after every mutation in the source, so each
lookup is simply recomputed from the current registry. -/
def discStep (m : Registry) (e : DiscEntry) : Registry :=
  discResolve (discConsolidate m e) e

/-- State of the final cleanup pass of `build_config` (lines 203-219):
first-seen name per id, first-seen name per ip, and names marked for
deletion. -/
structure CleanSt where
  ids : String → Option String
  ips : String → Option String
  del : List String

/-- One `if bid: ...` / `if ip: ...` block of the cleanup pass: when the
field is truthy, a name differing from the first-seen holder of the value
is appended to `to_delete`, otherwise the value's holder is recorded. -/
def markDup (seen : String → Option String) (del : List String)
    (fld : Option String) (name : String) :
    (String → Option String) × List String :=
  match tval fld with
  | none => (seen, del)
  | some x =>
    match seen x with
    | some m =>
      if m ≠ name then (seen, del ++ [name])
      else ((fun y => if y = x then some name else seen y), del)
    | none => ((fun y => if y = x then some name else seen y), del)

/-- One iteration of the final cleanup pass over a registry entry: the id
check followed by the ip check, sharing the `to_delete` list. -/
def cleanStep (st : CleanSt) (p : String × Rec) : CleanSt :=
  let idr := markDup st.ids st.del p.2.id p.1
  let ipr := markDup st.ips idr.2 p.2.ip p.1
  { ids := idr.1, ips := ipr.1, del := ipr.2 }

/-- The fold of the final cleanup pass. -/
def cleanFold (st : CleanSt) (l : Registry) : CleanSt :=
  l.foldl cleanStep st

/-- Names collected in `to_delete` by the final cleanup pass. -/
def cleanupDel (m : Registry) : List String :=
  (cleanFold ⟨fun _ => none, fun _ => none, []⟩ m).del

/-- The final cleanup pass: `for name in set(to_delete): merged.pop(name)`.
Only membership in the delete set matters, so this is a filter. -/
def cleanup (m : Registry) : Registry :=
  m.filter (fun p => decide (p.1 ∉ cleanupDel m))

/-- `build_config()` with its three inputs made explicit: the seed file
contents, the current `bulbs.json` contents, and the `discover_bulbs()`
result list.  Persisting via `save_json` returns the same registry it
writes, so the function is modelled by its return value. -/
def buildConfig (seed cfg : Registry) (disc : List DiscEntry) : Registry :=
  cleanup ((disc.foldl discStep (seedMerge cfg seed)))

/-! ## State store (`update_persisted`, `get_persisted`, `read_state_for`) -/

/-- A persisted device-state snapshot (one value of `state.json`). -/
abbrev SDict := Assoc JVal

/-- The whole persisted store `PERSISTED` (name to snapshot). -/
abbrev PStore := Assoc SDict

/-- The `patch["rgb"] = _normalize_rgb(patch.get("rgb"))` pre-step of
`update_persisted` (lines 330-331). -/
def normalizePatch (patch : SDict) : SDict :=
  if hasKey patch "rgb" then
    aset patch "rgb" (normalizeRgb ((aget patch "rgb").getD JVal.null))
  else patch

/-- The body of the merge loop of `update_persisted` (lines 333-338):
skip `None` fields, write a field and raise the change flag only when its
value differs from the stored one. -/
def mergeFieldStep (acc : SDict × Bool) (p : String × JVal) : SDict × Bool :=
  if p.2 = JVal.null then acc
  else if aget acc.1 p.1 ≠ some p.2 then (aset acc.1 p.1 p.2, true) else acc

/-- `update_persisted(name, patch)` (lines 323-341).  The returned boolean
records whether `save_json` ran, i.e. whether at least one field changed.
A falsy (empty) name is a no-op. -/
def updatePersisted (store : PStore) (name : String) (patch : SDict) :
    PStore × Bool :=
  if name = "" then (store, false)
  else
    let current : SDict := (aget store name).getD []
    let step := (normalizePatch patch).foldl mergeFieldStep (current, false)
    if step.2 then (aset store name step.1, true) else (store, false)

/-- `get_persisted(name)` (lines 343-346): the persisted snapshot, if any. -/
def getPersisted (store : PStore) (name : String) : Option SDict :=
  aget store name

/-- A successful `get_properties` result: property name to string value. -/
abbrev Props := Assoc String

/-- Lift an optional property string into a `JVal` (`None` stays null). -/
def jOfOptStr : Option String → JVal
  | none => JVal.null
  | some s => JVal.s s

/-- Lift an optional int into a `JVal`. -/
def jOfOptInt : Option Int → JVal
  | none => JVal.null
  | some n => JVal.i n

/-- The outcome of obtaining and using a Fixture Client handle for a name:
`none` models `BULBS.get(name)` returning no handle, `some (Except.error _)`
a `get_properties` call that raises, and `some (Except.ok props)` a
successful live read. -/
abbrev ClientRead := Option (Except Unit Props)

/-- `read_state_for(name)` (lines 548-575), with the Fixture Client
interaction abstracted into the `client` argument.  Returns the possibly
updated store together with the returned snapshot. -/
def readStateFor (store : PStore) (name : String) (client : ClientRead) :
    PStore × Option SDict :=
  match client with
  | none => (store, getPersisted store name)
  | some (Except.error _) => (store, getPersisted store name)
  | some (Except.ok props) =>
    let colorMode := toIntJ (jOfOptStr (aget props "color_mode"))
    let ct0 := toIntJ (jOfOptStr (aget props "ct"))
    let rgb0 := normalizeRgb (jOfOptStr (aget props "rgb"))
    let rgb := if colorMode = some 2 then JVal.null else rgb0
    let ct := if colorMode = some 1 ∨ colorMode = some 3 then none else ct0
    let live : SDict :=
      [("power", jOfOptStr (aget props "power")),
       ("bright", jOfOptInt (toIntJ (jOfOptStr (aget props "bright")))),
       ("ct", jOfOptInt ct),
       ("rgb", rgb),
       ("hue", jOfOptInt (toIntJ (jOfOptStr (aget props "hue")))),
       ("sat", jOfOptInt (toIntJ (jOfOptStr (aget props "sat")))),
       ("color_mode", jOfOptInt colorMode)]
    let store := (updatePersisted store name live).1
    (store, some (mergeState live ((getPersisted store name).getD [])))

/-! ## Routine scheduler -/

/-- The mutable scheduler bookkeeping `ROUTINES_STATUS`. -/
structure RoutinesStatus where
  running : Assoc Bool
  lastRun : Assoc Nat
  runningTargets : Assoc (List String)
deriving DecidableEq, Repr

/-- Scheduler state: `ROUTINES_CONFIG`, `ROUTINES_STATUS` and
`ROUTINES_CANCEL` (a cancel entry holds whether its event is set; the
Python `Event` object itself is always truthy). -/
structure SchedState where
  config : Assoc SDict
  status : RoutinesStatus
  cancels : Assoc Bool
deriving DecidableEq

/-- The scheduler state at process start (`ROUTINES_STATUS` /
`ROUTINES_CANCEL` initialisation, line 293-294). -/
def initSched (config : Assoc SDict) : SchedState :=
  { config := config, status := { running := [], lastRun := [], runningTargets := [] },
    cancels := [] }

/-- `start_routine(name)` (lines 435-453).  Rejects unknown names and any
state with a running routine; on acceptance it installs a fresh (unset)
cancel event and, as the worker's first visible action, marks the routine
running.  The `override` merge and target resolution only shape the worker's
private config copy and are not modelled. -/
def startRoutine (st : SchedState) (name : String) : SchedState × Bool :=
  match aget st.config name with
  | none => (st, false)
  | some _ =>
    if st.status.running.any (·.2) then (st, false)
    else if (aget st.status.running name).getD false then (st, false)
    else
      ({ st with
          cancels := aset st.cancels name false,
          status := { st.status with running := aset st.status.running name true } },
        true)

/-- `stop_routine(name)` (lines 455-460): `ROUTINES_CANCEL.get(name)` is
truthy whenever an event object was ever stored, so acceptance only tests
key presence. -/
def stopRoutine (st : SchedState) (name : String) : SchedState × Bool :=
  match aget st.cancels name with
  | some _ => ({ st with cancels := aset st.cancels name true }, true)
  | none => (st, false)

/-- The worker's `finally` block (lines 430-433): clear the running flag and
targets, stamp `last_run`.  The cancel entry is not removed. -/
def finishRoutine (st : SchedState) (name : String) (t : Nat) : SchedState :=
  { st with status :=
      { running := aset st.status.running name false,
        lastRun := aset st.status.lastRun name t,
        runningTargets := aset st.status.runningTargets name [] } }

/-- Python `x or d` for an optional int (`_to_int(...) or d`): both `None`
and `0` fall back to the default. -/
def pyOrInt (o : Option Int) (d : Int) : Int :=
  match o with
  | some n => if n = 0 then d else n
  | none => d

/-- The step count of `_routine_worker` (lines 400-402):
`steps = max(1, int(max(60, duration_min * 60)))`. -/
def routineSteps (cfg : SDict) : Nat :=
  let durationMin := pyOrInt (toIntJ ((aget cfg "duration_min").getD JVal.null)) 30
  (max 1 (max 60 (durationMin * 60))).toNat

/-- The clamped brightness bounds of `_routine_worker` (lines 405-406). -/
def routineBrightBounds (cfg : SDict) : Int × Int :=
  (clamp (pyOrInt (toIntJ ((aget cfg "start_bright").getD JVal.null)) 1) 1 100,
   clamp (pyOrInt (toIntJ ((aget cfg "end_bright").getD JVal.null)) 1) 1 100)

/-- The clamped colour-temperature bounds of `_routine_worker`
(lines 407-408). -/
def routineCtBounds (cfg : SDict) : Int × Int :=
  (clamp (pyOrInt (toIntJ ((aget cfg "start_ct").getD JVal.null)) 1700) 1700 6500,
   clamp (pyOrInt (toIntJ ((aget cfg "end_ct").getD JVal.null)) 1700) 1700 6500)

/-- Interpolation fraction `t = i / (steps - 1) if steps > 1 else 1`
(line 413). -/
def routineFrac (steps : Nat) (i : Nat) : ℚ :=
  if steps > 1 then (i : ℚ) / ((steps : ℚ) - 1) else 1

/-- Brightness commanded at step `i` (line 414):
`int(round(start + (end - start) * t))`. -/
def routineBright (cfg : SDict) (i : Nat) : Int :=
  let b := routineBrightBounds cfg
  round ((b.1 : ℚ) + ((b.2 : ℚ) - (b.1 : ℚ)) * routineFrac (routineSteps cfg) i)

/-- Colour temperature commanded at step `i` (line 415). -/
def routineCt (cfg : SDict) (i : Nat) : Int :=
  let b := routineCtBounds cfg
  round ((b.1 : ℚ) + ((b.2 : ℚ) - (b.1 : ℚ)) * routineFrac (routineSteps cfg) i)

/-- The per-step brightness sequence of one uninterrupted execution. -/
def routineBrightSeq (cfg : SDict) : List Int :=
  (List.range (routineSteps cfg)).map (routineBright cfg)

/-- The `boost` routine of `DEFAULT_ROUTINES` (lines 271-278). -/
def boostCfg : SDict :=
  [("target", JVal.s "all"), ("duration_min", JVal.i 2),
   ("start_bright", JVal.i 20), ("end_bright", JVal.i 100),
   ("start_ct", JVal.i 2700), ("end_ct", JVal.i 6000)]

/-! ## Presence monitor (`_presence_loop` body) -/

/-- The presence configuration fields consulted by one loop iteration. -/
structure PresenceCfg where
  enabled : Bool
  deviceName : String
  startTime : String
  endTime : String
deriving DecidableEq, Repr

/-- The mutable `PRESENCE_STATUS`. -/
structure PresenceStatus where
  present : Bool
  lastSeen : Nat
  lastTrigger : Nat
  lastError : String
deriving DecidableEq, Repr

/-- One iteration of `_presence_loop` (lines 502-535).  `reading` is the
`device_present` probe result, `trigResult` the boolean returned by
`_presence_trigger`, and `nowT` the wall-clock stamp; the returned flag
records whether `_presence_trigger` was invoked this iteration. -/
def presenceIter (cfg : PresenceCfg) (nowMinutes : Int) (reading trigResult : Bool)
    (nowT : Nat) (st : PresenceStatus) : PresenceStatus × Bool :=
  if cfg.enabled then
    match parseTimeHhmm cfg.startTime, parseTimeHhmm cfg.endTime with
    | some s, some e =>
      if timeInWindow nowMinutes s e then
        if cfg.deviceName = "" then
          ({ st with present := false, lastError := "device_name_missing" }, false)
        else
          let present := reading
          let wasPresent := st.present
          let st := { st with present := present }
          if present then
            let st := { st with lastSeen := nowT }
            if !wasPresent then
              if trigResult then
                ({ st with lastTrigger := nowT, lastError := "" }, true)
              else (st, true)
            else (st, false)
          else ({ st with lastError := "" }, false)
      else ({ st with present := false, lastError := "" }, false)
    | _, _ => ({ st with present := false, lastError := "invalid_time_window" }, false)
  else (st, false)

/-- Iterated presence polling: fold `presenceIter` over a list of
`(probe reading, trigger result, timestamp)` inputs, collecting for each
iteration whether the trigger action was invoked. -/
def presenceRun (cfg : PresenceCfg) (nowMinutes : Int) (st : PresenceStatus) :
    List (Bool × Bool × Nat) → List Bool
  | [] => []
  | (r, tr, tm) :: rest =>
    let step := presenceIter cfg nowMinutes r tr tm st
    step.2 :: presenceRun cfg nowMinutes step.1 rest


/-! ## Association-list lemmas -/

@[simp] theorem akeys_nil {α : Type} : akeys ([] : Assoc α) = [] := rfl

@[simp] theorem akeys_cons {α : Type} (p : String × α) (m : Assoc α) :
    akeys (p :: m) = p.1 :: akeys m := rfl

theorem nodupKeys_cons {α : Type} {p : String × α} {m : Assoc α}
    (h : NodupKeys (p :: m)) : NodupKeys m ∧ p.1 ∉ akeys m := by
  have h' : (p.1 :: akeys m).Nodup := h
  exact ⟨(List.nodup_cons.mp h').2, (List.nodup_cons.mp h').1⟩

theorem aget_aset_self {α : Type} (m : Assoc α) (k : String) (v : α) :
    aget (aset m k v) k = some v := by
  induction m with
  | nil => simp [aset, aget]
  | cons p m ih =>
    by_cases h : p.1 = k
    · simp [aset, h, aget]
    · simp [aset, h, aget, ih]

theorem aget_aset_ne {α : Type} (m : Assoc α) (k k' : String) (v : α)
    (h : k' ≠ k) : aget (aset m k v) k' = aget m k' := by
  induction m with
  | nil => simp [aset, aget, Ne.symm h]
  | cons p m ih =>
    by_cases hp : p.1 = k
    · have h1 : p.1 ≠ k' := by rw [hp]; exact Ne.symm h
      simp [aset, hp, aget, Ne.symm h, h1]
    · by_cases hp' : p.1 = k'
      · simp [aset, hp, aget, hp', h]
      · simp [aset, hp, aget, hp', ih]

theorem mem_of_aget_eq_some {α : Type} {m : Assoc α} {k : String} {v : α}
    (h : aget m k = some v) : (k, v) ∈ m := by
  induction m with
  | nil => simp [aget] at h
  | cons p m ih =>
    by_cases hp : p.1 = k
    · rw [aget, if_pos hp] at h
      have : p = (k, v) := by
        cases p
        simp_all
      rw [← this]
      exact List.mem_cons_self _ _
    · rw [aget, if_neg hp] at h
      exact List.mem_cons_of_mem _ (ih h)

theorem aget_eq_none_iff {α : Type} (m : Assoc α) (k : String) :
    aget m k = none ↔ ∀ v : α, (k, v) ∉ m := by
  induction m with
  | nil => simp [aget]
  | cons p m ih =>
    by_cases hp : p.1 = k
    · rw [aget, if_pos hp]
      constructor
      · intro h
        exact (Option.some_ne_none _ h).elim
      · intro h
        have hmem := h p.2
        rw [show (k, p.2) = p from by cases p; simp_all] at hmem
        exact (hmem (List.mem_cons_self p m)).elim
    · rw [aget, if_neg hp, ih]
      constructor
      · intro h v hv
        rcases List.mem_cons.mp hv with h1 | h1
        · exact hp (by rw [← h1])
        · exact h v h1
      · intro h v hv
        exact h v (List.mem_cons_of_mem _ hv)

theorem hasKey_iff_mem_akeys {α : Type} (m : Assoc α) (k : String) :
    hasKey m k = true ↔ k ∈ akeys m := by
  induction m with
  | nil => simp [hasKey]
  | cons p m ih =>
    rw [hasKey, akeys_cons, List.mem_cons, Bool.or_eq_true, decide_eq_true_eq, ih]
    constructor
    · rintro (h | h)
      · exact Or.inl h.symm
      · exact Or.inr h
    · rintro (h | h)
      · exact Or.inl h.symm
      · exact Or.inr h

theorem aget_of_mem_nodup {α : Type} {m : Assoc α} {k : String} {v : α}
    (hm : NodupKeys m) (h : (k, v) ∈ m) : aget m k = some v := by
  induction m with
  | nil => simp at h
  | cons p m ih =>
    rcases List.mem_cons.mp h with h1 | h1
    · rw [aget, if_pos (by rw [← h1])]
      rw [← h1]
    · have hk : p.1 ≠ k := by
        intro hq
        exact (nodupKeys_cons hm).2
          (hq ▸ List.mem_map.mpr ⟨(k, v), h1, rfl⟩)
      rw [aget, if_neg hk]
      exact ih (nodupKeys_cons hm).1 h1

theorem mem_aset_iff {α : Type} {m : Assoc α} (hm : NodupKeys m)
    (k : String) (v : α) (p : String × α) :
    p ∈ aset m k v ↔ p = (k, v) ∨ (p ∈ m ∧ p.1 ≠ k) := by
  induction m with
  | nil => simp [aset]
  | cons q m ih =>
    have hq : NodupKeys m := (nodupKeys_cons hm).1
    have hqk : q.1 ∉ akeys m := (nodupKeys_cons hm).2
    by_cases h : q.1 = k
    · rw [aset, if_pos h]
      constructor
      · intro hp
        rcases List.mem_cons.mp hp with h1 | h1
        · exact Or.inl h1
        · refine Or.inr ⟨List.mem_cons_of_mem _ h1, fun hk => ?_⟩
          exact hqk ((h.trans hk.symm) ▸ List.mem_map.mpr ⟨p, h1, rfl⟩)
      · rintro (rfl | ⟨h1, h2⟩)
        · exact List.mem_cons_self _ _
        · rcases List.mem_cons.mp h1 with h3 | h3
          · exact absurd (h3 ▸ h) h2
          · exact List.mem_cons_of_mem _ h3
    · rw [aset, if_neg h]
      constructor
      · intro hp
        rcases List.mem_cons.mp hp with h1 | h1
        · exact Or.inr ⟨List.mem_cons.mpr (Or.inl h1), by rw [h1]; exact h⟩
        · rcases (ih hq).mp h1 with h2 | ⟨h2, h3⟩
          · exact Or.inl h2
          · exact Or.inr ⟨List.mem_cons_of_mem _ h2, h3⟩
      · rintro (rfl | ⟨h1, h2⟩)
        · exact List.mem_cons_of_mem _ ((ih hq).mpr (Or.inl rfl))
        · rcases List.mem_cons.mp h1 with h3 | h3
          · exact h3 ▸ List.mem_cons_self _ _
          · exact List.mem_cons_of_mem _ ((ih hq).mpr (Or.inr ⟨h3, h2⟩))

theorem mem_aset_of_mem_ne {α : Type} {m : Assoc α} {p : String × α}
    (hp : p ∈ m) (k : String) (v : α) (hne : p.1 ≠ k) : p ∈ aset m k v := by
  induction m with
  | nil => simp at hp
  | cons q m ih =>
    by_cases h : q.1 = k
    · rw [aset, if_pos h]
      rcases List.mem_cons.mp hp with h1 | h1
      · exact absurd (h1 ▸ h) hne
      · exact List.mem_cons_of_mem _ h1
    · rw [aset, if_neg h]
      rcases List.mem_cons.mp hp with h1 | h1
      · exact h1 ▸ List.mem_cons_self _ _
      · exact List.mem_cons_of_mem _ (ih h1)

theorem mem_aset_self {α : Type} (m : Assoc α) (k : String) (v : α) :
    (k, v) ∈ aset m k v := by
  induction m with
  | nil => simp [aset]
  | cons q m ih =>
    by_cases h : q.1 = k
    · rw [aset, if_pos h]
      exact List.mem_cons_self _ _
    · rw [aset, if_neg h]
      exact List.mem_cons_of_mem _ ih

theorem mem_aset_elim {α : Type} {m : Assoc α} {k : String} {v : α}
    {p : String × α} (hp : p ∈ aset m k v) : p = (k, v) ∨ p ∈ m := by
  induction m with
  | nil => simpa [aset] using hp
  | cons q m ih =>
    by_cases h : q.1 = k
    · rw [aset, if_pos h] at hp
      rcases List.mem_cons.mp hp with h1 | h1
      · exact Or.inl h1
      · exact Or.inr (List.mem_cons_of_mem _ h1)
    · rw [aset, if_neg h] at hp
      rcases List.mem_cons.mp hp with h1 | h1
      · exact Or.inr (h1 ▸ List.mem_cons_self _ _)
      · rcases ih h1 with h2 | h2
        · exact Or.inl h2
        · exact Or.inr (List.mem_cons_of_mem _ h2)

theorem mem_apop_iff {α : Type} (m : Assoc α) (k : String) (p : String × α) :
    p ∈ apop m k ↔ p ∈ m ∧ p.1 ≠ k := by
  induction m with
  | nil => simp [apop]
  | cons q m ih =>
    by_cases h : q.1 = k
    · rw [apop, if_pos h, ih]
      constructor
      · rintro ⟨h1, h2⟩
        exact ⟨List.mem_cons_of_mem _ h1, h2⟩
      · rintro ⟨h1, h2⟩
        rcases List.mem_cons.mp h1 with h3 | h3
        · exact absurd (h3 ▸ h) h2
        · exact ⟨h3, h2⟩
    · rw [apop, if_neg h]
      constructor
      · intro h1
        rcases List.mem_cons.mp h1 with h3 | h3
        · exact ⟨h3 ▸ List.mem_cons_self _ _, h3 ▸ h⟩
        · rcases ih.mp h3 with ⟨h4, h5⟩
          exact ⟨List.mem_cons_of_mem _ h4, h5⟩
      · rintro ⟨h1, h2⟩
        rcases List.mem_cons.mp h1 with h3 | h3
        · exact h3 ▸ List.mem_cons_self _ _
        · exact List.mem_cons_of_mem _ (ih.mpr ⟨h3, h2⟩)

theorem aget_apop_ne {α : Type} (m : Assoc α) (k k' : String) (h : k' ≠ k) :
    aget (apop m k) k' = aget m k' := by
  induction m with
  | nil => rfl
  | cons p m ih =>
    by_cases hp : p.1 = k
    · have h1 : p.1 ≠ k' := by rw [hp]; exact Ne.symm h
      rw [apop, if_pos hp, aget, if_neg h1, ih]
    · rw [apop, if_neg hp, aget, aget]
      by_cases hp' : p.1 = k'
      · rw [if_pos hp', if_pos hp']
      · rw [if_neg hp', if_neg hp', ih]

theorem apop_sublist {α : Type} (m : Assoc α) (k : String) :
    (apop m k).Sublist m := by
  induction m with
  | nil => exact List.Sublist.refl _
  | cons p m ih =>
    by_cases hp : p.1 = k
    · rw [apop, if_pos hp]
      exact ih.cons p
    · rw [apop, if_neg hp]
      exact ih.cons₂ p

theorem nodupKeys_apop {α : Type} {m : Assoc α} (hm : NodupKeys m)
    (k : String) : NodupKeys (apop m k) := by
  have h1 : (akeys (apop m k)).Sublist (akeys m) := by
    simpa [akeys] using (apop_sublist m k).map (fun p : String × α => p.1)
  exact List.Nodup.sublist h1 hm

theorem akeys_aset_of_hasKey {α : Type} (m : Assoc α) (k : String) (v : α)
    (h : hasKey m k = true) : akeys (aset m k v) = akeys m := by
  induction m with
  | nil => simp [hasKey] at h
  | cons p m ih =>
    by_cases hp : p.1 = k
    · rw [aset, if_pos hp, akeys_cons, akeys_cons, hp]
    · rw [hasKey, Bool.or_eq_true, decide_eq_true_eq] at h
      rcases h with h | h
      · exact absurd h hp
      · rw [aset, if_neg hp, akeys_cons, akeys_cons, ih h]

theorem akeys_aset_of_not_hasKey {α : Type} (m : Assoc α) (k : String) (v : α)
    (h : hasKey m k = false) : akeys (aset m k v) = akeys m ++ [k] := by
  induction m with
  | nil => simp [aset]
  | cons p m ih =>
    rw [hasKey, Bool.or_eq_false_iff, decide_eq_false_iff_not] at h
    rw [aset, if_neg h.1, akeys_cons, akeys_cons, ih h.2, List.cons_append]

theorem nodupKeys_aset {α : Type} {m : Assoc α} (hm : NodupKeys m)
    (k : String) (v : α) : NodupKeys (aset m k v) := by
  rcases hb : hasKey m k with _ | _
  · have hk : k ∉ akeys m := fun hmem =>
      by simp [(hasKey_iff_mem_akeys m k).mpr hmem] at hb
    rw [NodupKeys, akeys_aset_of_not_hasKey m k v hb]
    simpa [List.nodup_append] using ⟨hm, hk⟩
  · rw [NodupKeys, akeys_aset_of_hasKey m k v hb]
    exact hm

theorem hasKey_false_of_apop_self {α : Type} (m : Assoc α) (k : String) :
    hasKey (apop m k) k = false := by
  rcases hb : hasKey (apop m k) k with _ | _
  · rfl
  · have := (hasKey_iff_mem_akeys (apop m k) k).mp hb
    rcases List.mem_map.mp this with ⟨p, hp, hk⟩
    exact absurd hk (((mem_apop_iff m k p).mp hp).2)

/-! ## State-store lemmas and claims C5, C10, C4 -/

/-- C5: on Fixture Client failure — no obtainable handle, or a raising
`get_properties` — `read_state_for` returns exactly the last persisted
snapshot for the name and leaves the persisted store unmodified. -/
theorem readStateFor_failure_keeps_persisted (store : PStore) (name : String)
    (client : ClientRead)
    (h : client = none ∨ ∃ e : Unit, client = some (Except.error e)) :
    readStateFor store name client = (store, getPersisted store name) := by
  rcases h with h | ⟨e, h⟩ <;> subst h <;> rfl

theorem readStateFor_failure_keeps_persisted_witness :
    readStateFor [("desk", [("bright", JVal.i 7)])] "desk"
        (some (Except.error ())) =
      ([("desk", [("bright", JVal.i 7)])], some [("bright", JVal.i 7)]) := by
  rw [readStateFor_failure_keeps_persisted _ _ _ (Or.inr ⟨(), rfl⟩)]
  rfl

theorem mergeFold_aget_null (patch : SDict) (cur : SDict) (ch : Bool)
    (k : String) (h : ∀ w, (k, w) ∈ patch → w = JVal.null) :
    aget (patch.foldl mergeFieldStep (cur, ch)).1 k = aget cur k := by
  induction patch generalizing cur ch with
  | nil => rfl
  | cons p rest ih =>
    rw [List.foldl_cons]
    by_cases hnull : p.2 = JVal.null
    · rw [mergeFieldStep, if_pos hnull]
      exact ih cur ch (fun w hw => h w (List.mem_cons_of_mem _ hw))
    · have hk : p.1 ≠ k := by
        intro hq
        exact hnull (h p.2 (by
          have : p = (k, p.2) := by cases p; simp_all
          exact this ▸ List.mem_cons_self _ _))
      have hrest : ∀ w, (k, w) ∈ rest → w = JVal.null :=
        fun w hw => h w (List.mem_cons_of_mem _ hw)
      rw [mergeFieldStep, if_neg hnull]
      by_cases hch : aget cur p.1 ≠ some p.2
      · rw [if_pos hch]
        rw [ih _ _ hrest, aget_aset_ne _ _ _ _ (fun q => hk q.symm)]
      · rw [if_neg hch]
        exact ih cur ch hrest

theorem mergeFold_aget_of_mem (patch : SDict) (cur : SDict) (ch : Bool)
    (k : String) (v : JVal) (hnd : NodupKeys patch) (hmem : (k, v) ∈ patch)
    (hv : v ≠ JVal.null) :
    aget (patch.foldl mergeFieldStep (cur, ch)).1 k = some v := by
  induction patch generalizing cur ch with
  | nil => simp at hmem
  | cons p rest ih =>
    rw [List.foldl_cons]
    rcases List.mem_cons.mp hmem with h1 | h1
    · have hk : p.1 = k := by rw [← h1]
      have hv2 : p.2 = v := by rw [← h1]
      have hnok : k ∉ akeys rest := hk ▸ (nodupKeys_cons hnd).2
      have hnull : ∀ w, (k, w) ∈ rest → w = JVal.null := by
        intro w hw
        exact absurd (List.mem_map.mpr ⟨(k, w), hw, rfl⟩) hnok
      rw [mergeFold_aget_null rest _ _ _ hnull]
      rw [mergeFieldStep, if_neg (hv2 ▸ hv)]
      by_cases hch : aget cur p.1 ≠ some p.2
      · rw [if_pos hch, ← hk, ← hv2]
        exact aget_aset_self _ _ _
      · push_neg at hch
        rw [if_neg (by simp [hch]), ← hk, ← hv2]
        exact hch
    · exact ih _ _ (nodupKeys_cons hnd).1 h1

theorem mergeFold_flag_true (patch : SDict) (cur : SDict) :
    (patch.foldl mergeFieldStep (cur, true)).2 = true := by
  induction patch generalizing cur with
  | nil => rfl
  | cons p rest ih =>
    rw [List.foldl_cons, mergeFieldStep]
    by_cases hnull : p.2 = JVal.null
    · rw [if_pos hnull]
      exact ih cur
    · rw [if_neg hnull]
      by_cases hch : aget cur p.1 ≠ some p.2
      · rw [if_pos hch]
        exact ih _
      · rw [if_neg hch]
        exact ih cur

theorem mergeFold_flag_iff (patch : SDict) (cur : SDict) :
    (patch.foldl mergeFieldStep (cur, false)).2 = true ↔
      ∃ p ∈ patch, p.2 ≠ JVal.null ∧ aget cur p.1 ≠ some p.2 := by
  induction patch generalizing cur with
  | nil => simp [List.foldl_nil]
  | cons p rest ih =>
    rw [List.foldl_cons, mergeFieldStep]
    by_cases hnull : p.2 = JVal.null
    · rw [if_pos hnull, ih]
      constructor
      · rintro ⟨q, hq, h1, h2⟩
        exact ⟨q, List.mem_cons_of_mem _ hq, h1, h2⟩
      · rintro ⟨q, hq, h1, h2⟩
        rcases List.mem_cons.mp hq with h3 | h3
        · exact absurd (h3 ▸ hnull) h1
        · exact ⟨q, h3, h1, h2⟩
    · rw [if_neg hnull]
      by_cases hch : aget cur p.1 ≠ some p.2
      · rw [if_pos hch]
        simp only [mergeFold_flag_true, true_iff]
        exact ⟨p, List.mem_cons_self _ _, hnull, hch⟩
      · rw [if_neg hch, ih]
        push_neg at hch
        constructor
        · rintro ⟨q, hq, h1, h2⟩
          exact ⟨q, List.mem_cons_of_mem _ hq, h1, h2⟩
        · rintro ⟨q, hq, h1, h2⟩
          rcases List.mem_cons.mp hq with h3 | h3
          · exact absurd (h3 ▸ hch) h2
          · exact ⟨q, h3, h1, h2⟩

theorem hasKey_eq_isSome_aget {α : Type} (m : Assoc α) (k : String) :
    hasKey m k = (aget m k).isSome := by
  induction m with
  | nil => rfl
  | cons p m ih =>
    by_cases hp : p.1 = k <;> simp [hasKey, aget, hp, ih]

theorem clampRgbList_none (xs : List JVal)
    (hx : ∃ x ∈ xs, ∀ n : Int, x ≠ JVal.i n) :
    clampRgbList xs = none := by
  induction xs with
  | nil => simp at hx
  | cons y ys ih =>
    rcases hx with ⟨x, hx1, hx2⟩
    rcases List.mem_cons.mp hx1 with rfl | h3
    · cases x with
      | i n => exact absurd rfl (hx2 n)
      | null => rfl
      | s _ => rfl
      | arr _ => rfl
    · cases y with
      | i n => rw [clampRgbList, ih ⟨x, h3, hx2⟩]; rfl
      | null => rfl
      | s _ => rfl
      | arr _ => rfl

theorem normalizeRgb_malformed (v : JVal)
    (hmal : (∃ xs, v = JVal.arr xs ∧
              (xs.length ≠ 3 ∨ ∃ x ∈ xs, ∀ n : Int, x ≠ JVal.i n)) ∨
            ((∀ xs, v ≠ JVal.arr xs) ∧ toIntJ v = none)) :
    normalizeRgb v = JVal.null := by
  rcases hmal with ⟨xs, rfl, hbad⟩ | ⟨hnarr, hnone⟩
  · by_cases hlen : xs.length = 3
    · rcases hbad with h | hx
      · exact absurd hlen h
      · simp [normalizeRgb, hlen, clampRgbList_none xs hx]
    · simp [normalizeRgb, hlen, toIntJ]
  · cases v with
    | null => rfl
    | s str =>
      have h : pyInt str = none := by simpa [toIntJ] using hnone
      simp [normalizeRgb, toIntJ, h]
    | i n => simp [toIntJ] at hnone
    | arr xs => exact absurd rfl (hnarr xs)

/-- C10: a state-store update whose patch carries a malformed `rgb` value
(a list that is not exactly three integers, or a non-list value that
`int()` cannot convert) leaves the previously persisted `rgb` unchanged. -/
theorem updatePersisted_malformed_rgb (store : PStore) (name : String)
    (patch : SDict) (v : JVal) (hname : name ≠ "") (hnd : NodupKeys patch)
    (hrgb : aget patch "rgb" = some v)
    (hmal : (∃ xs, v = JVal.arr xs ∧
              (xs.length ≠ 3 ∨ ∃ x ∈ xs, ∀ n : Int, x ≠ JVal.i n)) ∨
            ((∀ xs, v ≠ JVal.arr xs) ∧ toIntJ v = none)) :
    aget ((aget (updatePersisted store name patch).1 name).getD []) "rgb" =
      aget ((aget store name).getD []) "rgb" := by
  have hkey : hasKey patch "rgb" = true := by
    rw [hasKey_eq_isSome_aget, hrgb]
    rfl
  have hnp : normalizePatch patch = aset patch "rgb" JVal.null := by
    rw [normalizePatch, if_pos hkey, hrgb, Option.getD_some,
      normalizeRgb_malformed v hmal]
  have hall : ∀ w, ("rgb", w) ∈ normalizePatch patch → w = JVal.null := by
    rw [hnp]
    intro w hw
    rcases (mem_aset_iff hnd "rgb" JVal.null _).mp hw with h1 | ⟨_, h2⟩
    · exact (Prod.mk.injEq _ _ _ _ ▸ h1).2
    · exact absurd rfl h2
  simp only [updatePersisted, if_neg hname]
  by_cases hflag :
      ((normalizePatch patch).foldl mergeFieldStep ((aget store name).getD [], false)).2 = true
  · rw [if_pos hflag]
    simp only [aget_aset_self, Option.getD_some]
    exact mergeFold_aget_null _ _ _ _ hall
  · rw [if_neg hflag]

theorem updatePersisted_merge (store : PStore) (name : String) (patch : SDict)
    (hname : name ≠ "") (hnd : NodupKeys (normalizePatch patch)) :
    (∀ k v, (k, v) ∈ normalizePatch patch → v ≠ JVal.null →
      aget ((aget (updatePersisted store name patch).1 name).getD []) k = some v) ∧
    (∀ k, (∀ w, (k, w) ∈ normalizePatch patch → w = JVal.null) →
      aget ((aget (updatePersisted store name patch).1 name).getD []) k =
        aget ((aget store name).getD []) k) ∧
    ((updatePersisted store name patch).2 = true ↔
      ∃ p ∈ normalizePatch patch, p.2 ≠ JVal.null ∧
        aget ((aget store name).getD []) p.1 ≠ some p.2) := by
  simp only [updatePersisted, if_neg hname]
  by_cases hflag :
      ((normalizePatch patch).foldl mergeFieldStep ((aget store name).getD [], false)).2 = true
  · rw [if_pos hflag]
    refine ⟨?_, ?_, ?_⟩
    · intro k v hmem hv
      simp only [aget_aset_self, Option.getD_some]
      exact mergeFold_aget_of_mem _ _ _ _ _ hnd hmem hv
    · intro k hk
      simp only [aget_aset_self, Option.getD_some]
      exact mergeFold_aget_null _ _ _ _ hk
    · simp only [true_iff]
      exact (mergeFold_flag_iff _ _).mp hflag
  · rw [if_neg hflag]
    have hnone := (not_iff_not.mpr (mergeFold_flag_iff (normalizePatch patch)
      ((aget store name).getD []))).mp hflag
    push_neg at hnone
    refine ⟨?_, ?_, ?_⟩
    · intro k v hmem hv
      have := hnone (k, v) hmem hv
      simpa using this
    · intro k _
      rfl
    · constructor
      · intro h
        exact absurd h (by simp)
      · rintro ⟨p, hp, h1, h2⟩
        exact absurd (hnone p hp h1) h2

/-- C4: `update_persisted` merges exactly the non-null fields of the
(rgb-normalized) patch into the persisted snapshot, leaves fields absent
from (or null in) the patch unchanged, writes durably iff some field
actually changed, normalizes `rgb` from a packed integer or a triple to a
3-element `[0,255]`-clamped triple, and in particular
`update(name, patch with bright 42)` followed by `get(name)` shows
`bright = 42` with all other previously-set fields untouched. -/
theorem updatePersisted_spec (store : PStore) (name : String) (patch : SDict)
    (hname : name ≠ "") (hnd : NodupKeys (normalizePatch patch)) :
    (∀ k v, (k, v) ∈ normalizePatch patch → v ≠ JVal.null →
      aget ((aget (updatePersisted store name patch).1 name).getD []) k = some v) ∧
    (∀ k, (∀ w, (k, w) ∈ normalizePatch patch → w = JVal.null) →
      aget ((aget (updatePersisted store name patch).1 name).getD []) k =
        aget ((aget store name).getD []) k) ∧
    ((updatePersisted store name patch).2 = true ↔
      ∃ p ∈ normalizePatch patch, p.2 ≠ JVal.null ∧
        aget ((aget store name).getD []) p.1 ≠ some p.2) ∧
    (∀ n : Int, ∃ a b c : Int,
      normalizeRgb (JVal.i n) = JVal.arr [JVal.i a, JVal.i b, JVal.i c] ∧
      0 ≤ a ∧ a ≤ 255 ∧ 0 ≤ b ∧ b ≤ 255 ∧ 0 ≤ c ∧ c ≤ 255) ∧
    (∀ a b c : Int, normalizeRgb (JVal.arr [JVal.i a, JVal.i b, JVal.i c]) =
      JVal.arr [JVal.i (clamp a 0 255), JVal.i (clamp b 0 255),
        JVal.i (clamp c 0 255)]) ∧
    (aget ((aget (updatePersisted store name [("bright", JVal.i 42)]).1 name).getD [])
      "bright" = some (JVal.i 42)) ∧
    (∀ k, k ≠ "bright" →
      aget ((aget (updatePersisted store name [("bright", JVal.i 42)]).1 name).getD []) k =
        aget ((aget store name).getD []) k) := by
  obtain ⟨h1, h2, h3⟩ := updatePersisted_merge store name patch hname hnd
  have hnp42 : normalizePatch [("bright", JVal.i 42)] = [("bright", JVal.i 42)] := rfl
  obtain ⟨g1, g2, _⟩ := updatePersisted_merge store name [("bright", JVal.i 42)]
    hname (by rw [hnp42]; exact List.nodup_singleton "bright")
  refine ⟨h1, h2, h3, ?_, ?_, ?_, ?_⟩
  · intro n
    refine ⟨(Int.fdiv n 65536).emod 256, (Int.fdiv n 256).emod 256, n.emod 256,
      rfl, ?_, ?_, ?_, ?_, ?_, ?_⟩
    · exact Int.emod_nonneg _ (by norm_num)
    · exact Int.lt_add_one_iff.mp (Int.emod_lt_of_pos _ (by norm_num))
    · exact Int.emod_nonneg _ (by norm_num)
    · exact Int.lt_add_one_iff.mp (Int.emod_lt_of_pos _ (by norm_num))
    · exact Int.emod_nonneg _ (by norm_num)
    · exact Int.lt_add_one_iff.mp (Int.emod_lt_of_pos _ (by norm_num))
  · intro a b c
    rfl
  · refine g1 "bright" (JVal.i 42) ?_ (by simp)
    rw [hnp42]
    exact List.mem_singleton.mpr rfl
  · intro k hk
    refine g2 k ?_
    intro w hw
    rw [hnp42] at hw
    rcases List.mem_singleton.mp hw with h
    exact absurd (congrArg Prod.fst h) hk

theorem updatePersisted_spec_witness :
    aget ((aget (updatePersisted [("desk", [("power", JVal.s "on")])] "desk"
      [("bright", JVal.i 42)]).1 "desk").getD []) "bright" = some (JVal.i 42) :=
  (updatePersisted_spec [("desk", [("power", JVal.s "on")])] "desk"
    [("bright", JVal.i 42)] (by decide) (by decide)).2.2.2.2.2.1

theorem updatePersisted_malformed_rgb_witness :
    aget ((aget (updatePersisted [("desk", [("rgb", JVal.arr [JVal.i 1, JVal.i 2, JVal.i 3])])]
      "desk" [("rgb", JVal.s "oops")]).1 "desk").getD []) "rgb" =
      aget ((aget [("desk", [("rgb", JVal.arr [JVal.i 1, JVal.i 2, JVal.i 3])])] "desk").getD []) "rgb" := by
  refine updatePersisted_malformed_rgb _ _ _ (JVal.s "oops") (by decide)
    (by decide) (by decide) (Or.inr ⟨?_, ?_⟩)
  · intro xs h
    exact nomatch h
  · decide

/-! ## Routine scheduler claims C6, C7 -/

theorem aget_getD_false_of_any_false {l : Assoc Bool}
    (h : l.any (fun p => p.2) = false) (k : String) :
    (aget l k).getD false = false := by
  rcases hb : aget l k with _ | b
  · rfl
  · cases b
    · rfl
    · have hmem := mem_of_aget_eq_some hb
      have : l.any (fun p => p.2) = true := List.any_eq_true.mpr ⟨(k, true), hmem, rfl⟩
      rw [this] at h
      exact absurd h (by simp)

theorem startRoutine_accepted_of {st : SchedState} {m : String}
    (hc : aget st.config m ≠ none)
    (hrun : st.status.running.any (fun p => p.2) = false) :
    (startRoutine st m).2 = true := by
  rcases hcfg : aget st.config m with _ | c
  · exact absurd hcfg hc
  · rw [startRoutine, hcfg]
    rw [if_neg (by rw [hrun]; exact Bool.false_ne_true)]
    rw [if_neg (by rw [aget_getD_false_of_any_false hrun m]; exact Bool.false_ne_true)]

/-- C6: `start_routine` returns false exactly when the name is not a known
routine definition or some routine is currently running; and once the
(only) running routine exits — the worker's `finally` after completion or
cancellation — a subsequent start of a known routine returns true. -/
theorem startRoutine_spec :
    (∀ (st : SchedState) (name : String),
      (startRoutine st name).2 = false ↔
        (aget st.config name = none ∨
          st.status.running.any (fun p => p.2) = true)) ∧
    (∀ (st : SchedState) (name m : String) (t : Nat),
      NodupKeys st.status.running →
      aget st.config m ≠ none →
      (∀ p ∈ st.status.running, p.2 = true → p.1 = name) →
      (startRoutine (finishRoutine st name t) m).2 = true) := by
  constructor
  · intro st name
    rcases hcfg : aget st.config name with _ | c
    · simp [startRoutine, hcfg]
    · rcases hrun : st.status.running.any (fun p => p.2) with _ | _
      · rw [show (startRoutine st name).2 = true from
          startRoutine_accepted_of (by rw [hcfg]; exact Option.some_ne_none c) hrun]
        simp [hcfg]
      · simp [startRoutine, hcfg, hrun]
  · intro st name m t hnd hc hall
    refine startRoutine_accepted_of (by simpa [finishRoutine] using hc) ?_
    have : ∀ p ∈ aset st.status.running name false, p.2 = false := by
      intro p hp
      rcases (mem_aset_iff hnd name false p).mp hp with rfl | ⟨h1, h2⟩
      · rfl
      · rcases hb : p.2 with _ | _
        · rfl
        · exact absurd (hall p h1 hb) h2
    rcases hb : (aset st.status.running name false).any (fun p => p.2) with _ | _
    · exact hb
    · rcases List.any_eq_true.mp hb with ⟨p, hp, hpt⟩
      rw [this p hp] at hpt
      exact absurd hpt (by simp)

theorem startRoutine_spec_witness :
    (startRoutine (finishRoutine
      (startRoutine (initSched [("boost", boostCfg)]) "boost").1 "boost" 9)
      "boost").2 = true := by
  refine startRoutine_spec.2
    (startRoutine (initSched [("boost", boostCfg)]) "boost").1 "boost" "boost" 9
    (by decide) (by decide) ?_
  decide

/-- C7 counterexample: start the known routine `boost`, let its worker
exit (completion), so nothing is running any more — yet `stop_routine`
still returns true, because `ROUTINES_CANCEL` retains the event object
forever.  The claim that stop returns false in every non-running state is
therefore false on the code. -/
theorem stopRoutine_true_after_finish :
    ((stopRoutine (finishRoutine
        (startRoutine (initSched [("boost", boostCfg)]) "boost").1 "boost" 9)
      "boost").2 = true) ∧
    ((finishRoutine (startRoutine (initSched [("boost", boostCfg)]) "boost").1
        "boost" 9).status.running.any (fun p => p.2) = false) := by
  decide

/-- C7 amended: `stop_routine(name)` returns true iff a cancellation handle
exists for `name` — that is, iff some start of `name` was accepted earlier —
regardless of whether the routine is still running; it returns false
exactly for names never started.  The conjuncts: the acceptance criterion;
an accepted start installs the handle; `finish_routine` and `stop_routine`
never remove handles; the initial state has none. -/
theorem stopRoutine_spec :
    (∀ (st : SchedState) (name : String),
      (stopRoutine st name).2 = true ↔ hasKey st.cancels name = true) ∧
    (∀ (st : SchedState) (name : String), (startRoutine st name).2 = true →
      hasKey (startRoutine st name).1.cancels name = true) ∧
    (∀ (st : SchedState) (name m : String) (t : Nat),
      hasKey (finishRoutine st name t).cancels m = hasKey st.cancels m) ∧
    (∀ (st : SchedState) (name m : String),
      hasKey (stopRoutine st name).1.cancels m = hasKey st.cancels m) ∧
    (∀ (config : Assoc SDict) (name : String),
      (stopRoutine (initSched config) name).2 = false) := by
  refine ⟨?_, ?_, ?_, ?_, ?_⟩
  · intro st name
    rw [hasKey_eq_isSome_aget]
    rcases hc : aget st.cancels name with _ | b
    · simp [stopRoutine, hc]
    · simp [stopRoutine, hc]
  · intro st name h
    rcases hcfg : aget st.config name with _ | c
    · rw [startRoutine, hcfg] at h ⊢
      exact absurd h (by simp)
    · rw [startRoutine, hcfg] at h ⊢
      by_cases h1 : st.status.running.any (fun p => p.2) = true
      · rw [if_pos h1] at h ⊢
        exact absurd h (by simp)
      · rw [if_neg h1] at h ⊢
        by_cases h2 : (aget st.status.running name).getD false = true
        · rw [if_pos h2] at h ⊢
          exact absurd h (by simp)
        · rw [if_neg h2] at h ⊢
          rw [hasKey_eq_isSome_aget, aget_aset_self]
          rfl
  · intro st name m t
    rfl
  · intro st name m
    rcases hc : aget st.cancels name with _ | b
    · rw [stopRoutine, hc]
    · rw [stopRoutine, hc]
      by_cases h : m = name
      · subst h
        rw [hasKey_eq_isSome_aget, hasKey_eq_isSome_aget, aget_aset_self, hc]
        rfl
      · rw [hasKey_eq_isSome_aget, hasKey_eq_isSome_aget,
          aget_aset_ne _ _ _ _ h]
  · intro config name
    rfl

theorem stopRoutine_spec_witness :
    hasKey (startRoutine (initSched [("boost", boostCfg)]) "boost").1.cancels
      "boost" = true :=
  stopRoutine_spec.2.1 (initSched [("boost", boostCfg)]) "boost" (by decide)

/-! ## Presence monitor claim C9 -/

theorem presenceIter_probe (cfg : PresenceCfg) (nowMinutes s e : Int)
    (r tr : Bool) (tm : Nat) (st : PresenceStatus)
    (hen : cfg.enabled = true)
    (hs : parseTimeHhmm cfg.startTime = some s)
    (he : parseTimeHhmm cfg.endTime = some e)
    (hw : timeInWindow nowMinutes s e = true)
    (hd : cfg.deviceName ≠ "") :
    (presenceIter cfg nowMinutes r tr tm st).2 = (r && !st.present) ∧
    (presenceIter cfg nowMinutes r tr tm st).1.present = r := by
  rcases hb : st.present with _ | _ <;> cases r <;> cases tr <;>
    simp [presenceIter, hen, hs, he, hw, hd, hb]

/-- C9: with automation enabled, inside the active time window and with a
device name configured, the presence loop invokes the trigger action at
exactly the iterations whose probe reading is `present` while the previous
status was not present; in particular it is not invoked again while the
status remains present. -/
theorem presenceRun_rising_edge (cfg : PresenceCfg) (nowMinutes s e : Int)
    (st : PresenceStatus) (inputs : List (Bool × Bool × Nat))
    (hen : cfg.enabled = true)
    (hs : parseTimeHhmm cfg.startTime = some s)
    (he : parseTimeHhmm cfg.endTime = some e)
    (hw : timeInWindow nowMinutes s e = true)
    (hd : cfg.deviceName ≠ "") :
    presenceRun cfg nowMinutes st inputs =
      (inputs.zip (st.present :: inputs.map (fun q => q.1))).map
        (fun q => q.1.1 && !q.2) := by
  induction inputs generalizing st with
  | nil => rfl
  | cons q rest ih =>
    obtain ⟨r, tr, tm⟩ := q
    have hstep := presenceIter_probe cfg nowMinutes s e r tr tm st hen hs he hw hd
    rw [presenceRun]
    rw [List.map_cons, List.zip_cons_cons, List.map_cons]
    rw [hstep.1, ih, hstep.2]

theorem presenceRun_rising_edge_witness :
    presenceRun
      { enabled := true, deviceName := "ph", startTime := "19:00", endTime := "06:00" }
      1410 { present := false, lastSeen := 0, lastTrigger := 0, lastError := "" }
      [(false, true, 1), (true, true, 2), (true, true, 3), (false, true, 4),
        (true, true, 5)] =
      [false, true, false, false, true] := by
  rw [presenceRun_rising_edge
    { enabled := true, deviceName := "ph", startTime := "19:00", endTime := "06:00" }
    1410 1140 360 { present := false, lastSeen := 0, lastTrigger := 0, lastError := "" }
    [(false, true, 1), (true, true, 2), (true, true, 3), (false, true, 4), (true, true, 5)]
    rfl (by decide) (by decide) (by decide) (by decide)]
  decide

/-! ## Routine interpolation claim C8 -/

theorem routineBright_boost (i : Nat) :
    routineBright boostCfg i = 20 + (160 * (i : ℤ) + 119) / 238 := by
  have hb : routineBrightBounds boostCfg = (20, 100) := rfl
  have hs : routineSteps boostCfg = 120 := rfl
  simp only [routineBright, hb, hs]
  rw [routineFrac, if_pos (by norm_num)]
  have h119 : ((120 : ℕ) : ℚ) - 1 = 119 := by norm_num
  rw [h119]
  have key : (((20, 100) : Int × Int).1 : ℚ) +
      ((((20, 100) : Int × Int).2 : ℚ) - (((20, 100) : Int × Int).1 : ℚ)) * ((i : ℚ) / 119) =
      (80 * ((i : ℚ) / 119)) + ((20 : ℤ) : ℚ) := by
    push_cast
    ring
  rw [key, round_add_int, round_eq]
  have key2 : (80 : ℚ) * ((i : ℚ) / 119) + 1 / 2 =
      ((160 * (i : ℤ) + 119 : ℤ) : ℚ) / ((238 : ℕ) : ℚ) := by
    push_cast
    ring
  rw [key2, Rat.floor_intCast_div_natCast]
  omega

theorem routineBrightSeq_boost :
    routineBrightSeq boostCfg =
      (List.range 120).map (fun i => 20 + (160 * (i : ℤ) + 119) / 238) := by
  rw [routineBrightSeq, show routineSteps boostCfg = 120 from rfl]
  exact List.map_congr_left (fun i _ => routineBright_boost i)

theorem clamp_bounds (v lo hi : Int) (h : lo ≤ hi) :
    lo ≤ clamp v lo hi ∧ clamp v lo hi ≤ hi :=
  ⟨le_max_left _ _, max_le h (min_le_left _ _)⟩

theorem routineFrac_mem (steps i : Nat) (hi : i < steps) :
    0 ≤ routineFrac steps i ∧ routineFrac steps i ≤ 1 := by
  rw [routineFrac]
  by_cases h : steps > 1
  · rw [if_pos h]
    have hlt : (1 : ℚ) < (steps : ℚ) := by exact_mod_cast h
    constructor
    · exact div_nonneg (by positivity) (by linarith)
    · rw [div_le_one (by linarith)]
      have hle : (i : ℚ) + 1 ≤ (steps : ℚ) := by exact_mod_cast hi
      linarith
  · rw [if_neg h]
    norm_num

theorem round_le_round_rat {x y : ℚ} (h : x ≤ y) : round x ≤ round y := by
  rw [round_eq, round_eq]
  exact Int.floor_le_floor (by linarith)

theorem interp_round_bounds (a b t : ℚ) (lo hi : ℤ)
    (ha1 : (lo : ℚ) ≤ a) (ha2 : a ≤ (hi : ℚ))
    (hb1 : (lo : ℚ) ≤ b) (hb2 : b ≤ (hi : ℚ))
    (ht1 : 0 ≤ t) (ht2 : t ≤ 1) :
    lo ≤ round (a + (b - a) * t) ∧ round (a + (b - a) * t) ≤ hi := by
  have h1 : (lo : ℚ) ≤ a + (b - a) * t := by nlinarith
  have h2 : a + (b - a) * t ≤ (hi : ℚ) := by nlinarith
  constructor
  · have := round_le_round_rat h1
    rwa [round_intCast] at this
  · have := round_le_round_rat h2
    rwa [round_intCast] at this

/-- C8: for the `boost`-shaped routine (`start_bright = 20`,
`end_bright = 100`, `duration_min = 2`) the worker runs 120 steps with
fraction `t = i / (steps - 1)`; the brightness sequence is monotonically
non-decreasing from 20 to 100; and for every configuration each step's
rounded brightness stays in `[1, 100]` and each colour temperature in
`[1700, 6500]`, the bounds having been clamped before interpolation. -/
theorem routineWorker_interpolation :
    routineSteps boostCfg = 120 ∧
    (routineBrightSeq boostCfg).length = 120 ∧
    List.Pairwise (fun a b => a ≤ b) (routineBrightSeq boostCfg) ∧
    (routineBrightSeq boostCfg).head? = some 20 ∧
    (routineBrightSeq boostCfg).getLast? = some 100 ∧
    (∀ (cfg : SDict) (i : Nat), i < routineSteps cfg →
      1 ≤ routineBright cfg i ∧ routineBright cfg i ≤ 100 ∧
      1700 ≤ routineCt cfg i ∧ routineCt cfg i ≤ 6500) := by
  refine ⟨rfl, ?_, ?_, ?_, ?_, ?_⟩
  · rw [routineBrightSeq_boost]
    decide
  · rw [routineBrightSeq_boost]
    decide
  · rw [routineBrightSeq_boost]
    decide
  · rw [routineBrightSeq_boost]
    decide
  · intro cfg i hi
    obtain ⟨hf0, hf1⟩ := routineFrac_mem (routineSteps cfg) i hi
    have h1 : 1 ≤ (routineBrightBounds cfg).1 ∧ (routineBrightBounds cfg).1 ≤ 100 :=
      clamp_bounds _ 1 100 (by norm_num)
    have h2 : 1 ≤ (routineBrightBounds cfg).2 ∧ (routineBrightBounds cfg).2 ≤ 100 :=
      clamp_bounds _ 1 100 (by norm_num)
    have h3 : 1700 ≤ (routineCtBounds cfg).1 ∧ (routineCtBounds cfg).1 ≤ 6500 :=
      clamp_bounds _ 1700 6500 (by norm_num)
    have h4 : 1700 ≤ (routineCtBounds cfg).2 ∧ (routineCtBounds cfg).2 ≤ 6500 :=
      clamp_bounds _ 1700 6500 (by norm_num)
    have hbr := interp_round_bounds ((routineBrightBounds cfg).1 : ℚ)
      ((routineBrightBounds cfg).2 : ℚ) (routineFrac (routineSteps cfg) i) 1 100
      (by exact_mod_cast h1.1) (by exact_mod_cast h1.2)
      (by exact_mod_cast h2.1) (by exact_mod_cast h2.2) hf0 hf1
    have hct := interp_round_bounds ((routineCtBounds cfg).1 : ℚ)
      ((routineCtBounds cfg).2 : ℚ) (routineFrac (routineSteps cfg) i) 1700 6500
      (by exact_mod_cast h3.1) (by exact_mod_cast h3.2)
      (by exact_mod_cast h4.1) (by exact_mod_cast h4.2) hf0 hf1
    exact ⟨hbr.1, hbr.2, hct.1, hct.2⟩

theorem routineWorker_interpolation_witness :
    1 ≤ routineBright boostCfg 0 ∧ routineBright boostCfg 0 ≤ 100 ∧
    1700 ≤ routineCt boostCfg 0 ∧ routineCt boostCfg 0 ≤ 6500 :=
  routineWorker_interpolation.2.2.2.2.2 boostCfg 0 (by decide)

/-! ## Cleanup-pass lemmas and claim C1 -/

/-- No two distinct names of a registry share a non-empty id. -/
def UniqueIds (m : Registry) : Prop :=
  ∀ p1 ∈ m, ∀ p2 ∈ m, p1.1 ≠ p2.1 →
    ∀ x, tval p1.2.id = some x → tval p2.2.id ≠ some x

/-- No two distinct names of a registry share a non-empty ip. -/
def UniqueIps (m : Registry) : Prop :=
  ∀ p1 ∈ m, ∀ p2 ∈ m, p1.1 ≠ p2.1 →
    ∀ x, tval p1.2.ip = some x → tval p2.2.ip ≠ some x

theorem markDup_del_sup (seen : String → Option String) (del : List String)
    (fld : Option String) (name : String) :
    ∀ a ∈ del, a ∈ (markDup seen del fld name).2 := by
  intro a ha
  rcases hfv : tval fld with _ | x
  · simpa [markDup, hfv] using ha
  · rcases hy : seen x with _ | m
    · simpa [markDup, hfv, hy] using ha
    · by_cases h : m = name
      · simpa [markDup, hfv, hy, h] using ha
      · simp only [markDup, hfv, hy, if_pos h, List.mem_append]
        exact Or.inl ha

theorem markDup_seen_stable (seen : String → Option String) (del : List String)
    (fld : Option String) (name x m : String) (h : seen x = some m) :
    (markDup seen del fld name).1 x = some m := by
  rcases hfv : tval fld with _ | y
  · simpa [markDup, hfv] using h
  · rcases hy : seen y with _ | m'
    · by_cases hxy : x = y
      · rw [hxy, hy] at h
        exact absurd h (by simp)
      · simpa [markDup, hfv, hy, hxy] using h
    · by_cases hm : m' = name
      · by_cases hxy : x = y
        · subst hxy
          rw [hy] at h
          simp only [markDup, hfv, hy, if_neg (not_not_intro hm)]
          simp [← Option.some.inj h, hm]
        · simp only [markDup, hfv, hy, if_neg (not_not_intro hm)]
          simpa [hxy] using h
      · simpa [markDup, hfv, hy, if_pos hm, hm] using h

theorem markDup_marks (seen : String → Option String) (del : List String)
    (fld : Option String) (name x m : String) (hs : seen x = some m)
    (hf : tval fld = some x) (hne : name ≠ m) :
    name ∈ (markDup seen del fld name).2 := by
  have hmn : m ≠ name := fun q => hne (Eq.symm q)
  simp only [markDup, hf, hs, if_pos hmn, List.mem_append]
  exact Or.inr (List.mem_singleton.mpr rfl)

theorem markDup_seen_new (seen : String → Option String) (del : List String)
    (fld : Option String) (name x : String) (hs : seen x = none)
    (hf : tval fld = some x) :
    (markDup seen del fld name).1 x = some name := by
  simp [markDup, hf, hs]

theorem markDup_seen_none (seen : String → Option String) (del : List String)
    (fld : Option String) (name x : String) (hs : seen x = none)
    (hf : tval fld ≠ some x) :
    (markDup seen del fld name).1 x = none := by
  rcases hfv : tval fld with _ | y
  · simpa [markDup, hfv] using hs
  · have hxy : x ≠ y := fun q => hf (by rw [hfv, q])
    rcases hy : seen y with _ | m'
    · simpa [markDup, hfv, hy, hxy] using hs
    · by_cases hm : m' = name
      · simp only [markDup, hfv, hy, if_neg (not_not_intro hm)]
        simpa [hxy] using hs
      · simpa [markDup, hfv, hy, if_pos hm] using hs

theorem cleanStep_del_sup (st : CleanSt) (p : String × Rec) :
    ∀ a ∈ st.del, a ∈ (cleanStep st p).del := by
  intro a ha
  exact markDup_del_sup _ _ _ _ a (markDup_del_sup _ _ _ _ a ha)

theorem cleanStep_ids_stable (st : CleanSt) (p : String × Rec) (x m : String)
    (h : st.ids x = some m) : (cleanStep st p).ids x = some m :=
  markDup_seen_stable _ _ _ _ _ _ h

theorem cleanStep_ips_stable (st : CleanSt) (p : String × Rec) (x m : String)
    (h : st.ips x = some m) : (cleanStep st p).ips x = some m :=
  markDup_seen_stable _ _ _ _ _ _ h

theorem cleanStep_marks_id (st : CleanSt) (p : String × Rec) (x m : String)
    (hs : st.ids x = some m) (hf : tval p.2.id = some x) (hne : p.1 ≠ m) :
    p.1 ∈ (cleanStep st p).del :=
  markDup_del_sup _ _ _ _ _
    (markDup_marks st.ids st.del p.2.id p.1 x m hs hf hne)

theorem cleanStep_marks_ip (st : CleanSt) (p : String × Rec) (x m : String)
    (hs : st.ips x = some m) (hf : tval p.2.ip = some x) (hne : p.1 ≠ m) :
    p.1 ∈ (cleanStep st p).del :=
  markDup_marks st.ips (markDup st.ids st.del p.2.id p.1).2 p.2.ip p.1 x m
    hs hf hne

theorem cleanStep_ids_after (st : CleanSt) (p : String × Rec) (x : String)
    (hs : st.ids x = none) :
    (cleanStep st p).ids x =
      (if tval p.2.id = some x then some p.1 else none) := by
  by_cases h : tval p.2.id = some x
  · rw [if_pos h]
    exact markDup_seen_new _ _ _ _ _ hs h
  · rw [if_neg h]
    exact markDup_seen_none _ _ _ _ _ hs h

theorem cleanStep_ips_after (st : CleanSt) (p : String × Rec) (x : String)
    (hs : st.ips x = none) :
    (cleanStep st p).ips x =
      (if tval p.2.ip = some x then some p.1 else none) := by
  by_cases h : tval p.2.ip = some x
  · rw [if_pos h]
    exact markDup_seen_new _ _ _ _ _ hs h
  · rw [if_neg h]
    exact markDup_seen_none _ _ _ _ _ hs h

theorem cleanFold_del_sup (l : Registry) (st : CleanSt) :
    ∀ a ∈ st.del, a ∈ (cleanFold st l).del := by
  induction l generalizing st with
  | nil => intro a ha; exact ha
  | cons q t ih =>
    intro a ha
    exact ih (cleanStep st q) a (cleanStep_del_sup st q a ha)

theorem cleanFold_ids_stable (l : Registry) (st : CleanSt) (x m : String)
    (h : st.ids x = some m) : (cleanFold st l).ids x = some m := by
  induction l generalizing st with
  | nil => exact h
  | cons q t ih => exact ih (cleanStep st q) (cleanStep_ids_stable st q x m h)

theorem cleanFold_ips_stable (l : Registry) (st : CleanSt) (x m : String)
    (h : st.ips x = some m) : (cleanFold st l).ips x = some m := by
  induction l generalizing st with
  | nil => exact h
  | cons q t ih => exact ih (cleanStep st q) (cleanStep_ips_stable st q x m h)

theorem cleanFold_delAll_id (l : Registry) (st : CleanSt) (x m : String)
    (h : st.ids x = some m) :
    ∀ p ∈ l, tval p.2.id = some x → p.1 ≠ m → p.1 ∈ (cleanFold st l).del := by
  induction l generalizing st with
  | nil =>
    intro p hp
    simp at hp
  | cons q t ih =>
    intro p hp hf hne
    rcases List.mem_cons.mp hp with rfl | hmem
    · exact cleanFold_del_sup t _ _ (cleanStep_marks_id st p x m h hf hne)
    · exact ih (cleanStep st q) (cleanStep_ids_stable st q x m h) p hmem hf hne

theorem cleanFold_delAll_ip (l : Registry) (st : CleanSt) (x m : String)
    (h : st.ips x = some m) :
    ∀ p ∈ l, tval p.2.ip = some x → p.1 ≠ m → p.1 ∈ (cleanFold st l).del := by
  induction l generalizing st with
  | nil =>
    intro p hp
    simp at hp
  | cons q t ih =>
    intro p hp hf hne
    rcases List.mem_cons.mp hp with rfl | hmem
    · exact cleanFold_del_sup t _ _ (cleanStep_marks_ip st p x m h hf hne)
    · exact ih (cleanStep st q) (cleanStep_ips_stable st q x m h) p hmem hf hne

theorem cleanFold_pair_id (l : Registry) (st : CleanSt) (x : String)
    (h : st.ids x = none) :
    ∀ p1 ∈ l, ∀ p2 ∈ l, p1.1 ≠ p2.1 → tval p1.2.id = some x →
      tval p2.2.id = some x →
      p1.1 ∈ (cleanFold st l).del ∨ p2.1 ∈ (cleanFold st l).del := by
  induction l generalizing st with
  | nil =>
    intro p1 hp1
    simp at hp1
  | cons q t ih =>
    intro p1 hp1 p2 hp2 hne hf1 hf2
    rcases List.mem_cons.mp hp1 with rfl | hm1
    · rcases List.mem_cons.mp hp2 with heq | hm2
      · exact absurd (congrArg Prod.fst heq).symm hne
      · have hids := cleanStep_ids_after st p1 x h
        rw [if_pos hf1] at hids
        exact Or.inr (cleanFold_delAll_id t (cleanStep st p1) x p1.1 hids
          p2 hm2 hf2 (fun q => hne q.symm))
    · rcases List.mem_cons.mp hp2 with rfl | hm2
      · have hids := cleanStep_ids_after st p2 x h
        rw [if_pos hf2] at hids
        exact Or.inl (cleanFold_delAll_id t (cleanStep st p2) x p2.1 hids
          p1 hm1 hf1 hne)
      · by_cases hq : tval q.2.id = some x
        · have hids := cleanStep_ids_after st q x h
          rw [if_pos hq] at hids
          by_cases h1q : p1.1 = q.1
          · refine Or.inr (cleanFold_delAll_id t (cleanStep st q) x q.1 hids
              p2 hm2 hf2 ?_)
            intro r
            exact hne (h1q.trans r.symm)
          · exact Or.inl (cleanFold_delAll_id t (cleanStep st q) x q.1 hids
              p1 hm1 hf1 h1q)
        · have hids := cleanStep_ids_after st q x h
          rw [if_neg hq] at hids
          exact ih (cleanStep st q) hids p1 hm1 p2 hm2 hne hf1 hf2

theorem cleanFold_pair_ip (l : Registry) (st : CleanSt) (x : String)
    (h : st.ips x = none) :
    ∀ p1 ∈ l, ∀ p2 ∈ l, p1.1 ≠ p2.1 → tval p1.2.ip = some x →
      tval p2.2.ip = some x →
      p1.1 ∈ (cleanFold st l).del ∨ p2.1 ∈ (cleanFold st l).del := by
  induction l generalizing st with
  | nil =>
    intro p1 hp1
    simp at hp1
  | cons q t ih =>
    intro p1 hp1 p2 hp2 hne hf1 hf2
    rcases List.mem_cons.mp hp1 with rfl | hm1
    · rcases List.mem_cons.mp hp2 with heq | hm2
      · exact absurd (congrArg Prod.fst heq).symm hne
      · have hips := cleanStep_ips_after st p1 x h
        rw [if_pos hf1] at hips
        exact Or.inr (cleanFold_delAll_ip t (cleanStep st p1) x p1.1 hips
          p2 hm2 hf2 (fun q => hne q.symm))
    · rcases List.mem_cons.mp hp2 with rfl | hm2
      · have hips := cleanStep_ips_after st p2 x h
        rw [if_pos hf2] at hips
        exact Or.inl (cleanFold_delAll_ip t (cleanStep st p2) x p2.1 hips
          p1 hm1 hf1 hne)
      · by_cases hq : tval q.2.ip = some x
        · have hips := cleanStep_ips_after st q x h
          rw [if_pos hq] at hips
          by_cases h1q : p1.1 = q.1
          · refine Or.inr (cleanFold_delAll_ip t (cleanStep st q) x q.1 hips
              p2 hm2 hf2 ?_)
            intro r
            exact hne (h1q.trans r.symm)
          · exact Or.inl (cleanFold_delAll_ip t (cleanStep st q) x q.1 hips
              p1 hm1 hf1 h1q)
        · have hips := cleanStep_ips_after st q x h
          rw [if_neg hq] at hips
          exact ih (cleanStep st q) hips p1 hm1 p2 hm2 hne hf1 hf2

theorem mem_cleanup_iff (m : Registry) (p : String × Rec) :
    p ∈ cleanup m ↔ p ∈ m ∧ p.1 ∉ cleanupDel m := by
  simp [cleanup, List.mem_filter]

theorem cleanup_uniqueIds (m : Registry) : UniqueIds (cleanup m) := by
  intro p1 h1 p2 h2 hne x hx1 hx2
  obtain ⟨hm1, hd1⟩ := (mem_cleanup_iff m p1).mp h1
  obtain ⟨hm2, hd2⟩ := (mem_cleanup_iff m p2).mp h2
  rcases cleanFold_pair_id m ⟨fun _ => none, fun _ => none, []⟩ x rfl
    p1 hm1 p2 hm2 hne hx1 hx2 with h | h
  · exact hd1 h
  · exact hd2 h

theorem cleanup_uniqueIps (m : Registry) : UniqueIps (cleanup m) := by
  intro p1 h1 p2 h2 hne x hx1 hx2
  obtain ⟨hm1, hd1⟩ := (mem_cleanup_iff m p1).mp h1
  obtain ⟨hm2, hd2⟩ := (mem_cleanup_iff m p2).mp h2
  rcases cleanFold_pair_ip m ⟨fun _ => none, fun _ => none, []⟩ x rfl
    p1 hm1 p2 hm2 hne hx1 hx2 with h | h
  · exact hd1 h
  · exact hd2 h

/-- C1: whatever the seed mapping, prior registry and discovery list, in the
registry returned (and persisted) by `build_config` no two distinct names
carry the same non-empty id, and no two distinct names carry the same
non-empty ip. -/
theorem buildConfig_unique (seed cfg : Registry) (disc : List DiscEntry)
    (p1 p2 : String × Rec)
    (h1 : p1 ∈ buildConfig seed cfg disc)
    (h2 : p2 ∈ buildConfig seed cfg disc) (hne : p1.1 ≠ p2.1) :
    (∀ x, tval p1.2.id = some x → tval p2.2.id ≠ some x) ∧
    (∀ x, tval p1.2.ip = some x → tval p2.2.ip ≠ some x) := by
  constructor
  · intro x hx1
    exact cleanup_uniqueIds _ p1 h1 p2 h2 hne x hx1
  · intro x hx1
    exact cleanup_uniqueIps _ p1 h1 p2 h2 hne x hx1

theorem buildConfig_unique_witness :
    tval (Rec.mk none (some "x")).id ≠ some "y" := by
  have h := buildConfig_unique [("A", { ip := none, id := some "x" })]
    [("B", { ip := none, id := some "y" })] []
    ("B", { ip := none, id := some "y" }) ("A", { ip := none, id := some "x" })
    (by decide) (by decide) (by decide)
  exact h.1 "y" (by decide)

/-! ## Cleanup is the identity on already-unique registries; claim C2 -/

theorem markDup_no_del (M : Registry) (getf : Rec → Option String)
    (huni : ∀ p1 ∈ M, ∀ p2 ∈ M, p1.1 ≠ p2.1 →
      ∀ x, tval (getf p1.2) = some x → tval (getf p2.2) ≠ some x)
    (seen : String → Option String) (del : List String) (q : String × Rec)
    (hq : q ∈ M)
    (hinv : ∀ x n, seen x = some n → ∃ r, (n, r) ∈ M ∧ tval (getf r) = some x) :
    (markDup seen del (getf q.2) q.1).2 = del ∧
    (∀ x n, (markDup seen del (getf q.2) q.1).1 x = some n →
      ∃ r, (n, r) ∈ M ∧ tval (getf r) = some x) := by
  rcases hf : tval (getf q.2) with _ | x
  · constructor
    · simp [markDup, hf]
    · intro y ny hy
      exact hinv y ny (by simpa [markDup, hf] using hy)
  · rcases hs : seen x with _ | n
    · constructor
      · simp [markDup, hf, hs]
      · intro y ny hy
        simp only [markDup, hf, hs] at hy
        by_cases hxy : y = x
        · subst hxy
          rw [if_pos rfl] at hy
          obtain rfl := Option.some.inj hy
          exact ⟨q.2, hq, hf⟩
        · rw [if_neg hxy] at hy
          exact hinv y ny hy
    · by_cases hn : n = q.1
      · constructor
        · simp [markDup, hf, hs, hn]
        · intro y ny hy
          simp only [markDup, hf, hs, if_neg (not_not_intro hn)] at hy
          by_cases hxy : y = x
          · subst hxy
            rw [if_pos rfl] at hy
            obtain rfl := Option.some.inj hy
            obtain ⟨r, hrM, hrx⟩ := hinv _ n hs
            rw [hn] at hrM
            exact ⟨r, hrM, hrx⟩
          · rw [if_neg hxy] at hy
            exact hinv y ny hy
      · obtain ⟨r, hrM, hrx⟩ := hinv x n hs
        have : tval (getf q.2) ≠ some x := huni (n, r) hrM q hq hn x hrx
        exact absurd hf this

theorem cleanStep_no_del (M : Registry) (hid : UniqueIds M) (hip : UniqueIps M)
    (st : CleanSt) (q : String × Rec) (hq : q ∈ M)
    (hids : ∀ x n, st.ids x = some n → ∃ r, (n, r) ∈ M ∧ tval r.id = some x)
    (hips : ∀ x n, st.ips x = some n → ∃ r, (n, r) ∈ M ∧ tval r.ip = some x) :
    (cleanStep st q).del = st.del ∧
    (∀ x n, (cleanStep st q).ids x = some n →
      ∃ r, (n, r) ∈ M ∧ tval r.id = some x) ∧
    (∀ x n, (cleanStep st q).ips x = some n →
      ∃ r, (n, r) ∈ M ∧ tval r.ip = some x) := by
  obtain ⟨hd1, hi1⟩ := markDup_no_del M (fun r => r.id) hid st.ids st.del q hq hids
  obtain ⟨hd2, hi2⟩ := markDup_no_del M (fun r => r.ip) hip st.ips
    (markDup st.ids st.del q.2.id q.1).2 q hq hips
  refine ⟨?_, hi1, hi2⟩
  show (markDup st.ips (markDup st.ids st.del q.2.id q.1).2 q.2.ip q.1).2 = st.del
  rw [hd2, hd1]

theorem cleanFold_no_del (M : Registry) (hid : UniqueIds M) (hip : UniqueIps M) :
    ∀ (l : Registry) (st : CleanSt), (∀ p ∈ l, p ∈ M) →
      (∀ x n, st.ids x = some n → ∃ r, (n, r) ∈ M ∧ tval r.id = some x) →
      (∀ x n, st.ips x = some n → ∃ r, (n, r) ∈ M ∧ tval r.ip = some x) →
      st.del = [] → (cleanFold st l).del = [] := by
  intro l
  induction l with
  | nil =>
    intro st _ _ _ hdel
    exact hdel
  | cons q t ih =>
    intro st hsub hids hips hdel
    obtain ⟨hd, hi1, hi2⟩ := cleanStep_no_del M hid hip st q
      (hsub q (List.mem_cons_self q t)) hids hips
    exact ih (cleanStep st q) (fun p hp => hsub p (List.mem_cons_of_mem _ hp))
      hi1 hi2 (hd.trans hdel)

theorem cleanupDel_empty (m : Registry) (hid : UniqueIds m) (hip : UniqueIps m) :
    cleanupDel m = [] := by
  refine cleanFold_no_del m hid hip m ⟨fun _ => none, fun _ => none, []⟩
    (fun p hp => hp) ?_ ?_ rfl
  · intro x n h
    exact absurd h (by simp)
  · intro x n h
    exact absurd h (by simp)

theorem cleanup_id (m : Registry) (hid : UniqueIds m) (hip : UniqueIps m) :
    cleanup m = m := by
  simp [cleanup, cleanupDel_empty m hid hip]

theorem aset_self {α : Type} {m : Assoc α} {k : String} {v : α}
    (h : aget m k = some v) : aset m k v = m := by
  induction m with
  | nil => simp [aget] at h
  | cons p t ih =>
    by_cases hp : p.1 = k
    · rw [aget, if_pos hp] at h
      rw [aset, if_pos hp]
      have : (k, v) = p := by
        cases p
        simp_all
      rw [this]
    · rw [aget, if_neg hp] at h
      rw [aset, if_neg hp, ih h]

/-- The seed fields already agree with the registry: for every seed entry
the registry holds its name, and every truthy seed field equals the stored
field. -/
def SeedAgrees (seed R : Registry) : Prop :=
  ∀ p ∈ seed, ∃ r : Rec, aget R p.1 = some r ∧
    ((tval p.2.id).isSome → r.id = p.2.id) ∧
    ((tval p.2.ip).isSome → r.ip = p.2.ip)

theorem seedStep_id (R : Registry) (q : String × Rec) (r : Rec)
    (hr : aget R q.1 = some r)
    (hid : (tval q.2.id).isSome → r.id = q.2.id)
    (hip : (tval q.2.ip).isSome → r.ip = q.2.ip) :
    seedStep R q = R := by
  have hme :
      (if (tval q.2.ip).isSome then
        { (if (tval q.2.id).isSome then { ((aget R q.1).getD {}) with id := q.2.id }
           else ((aget R q.1).getD {})) with ip := q.2.ip }
       else (if (tval q.2.id).isSome then { ((aget R q.1).getD {}) with id := q.2.id }
           else ((aget R q.1).getD {}))) = r := by
    rw [hr, Option.getD_some]
    by_cases h1 : (tval q.2.id).isSome
    · by_cases h2 : (tval q.2.ip).isSome
      · rw [if_pos h1, if_pos h2, ← hid h1, ← hip h2]
      · rw [if_pos h1, if_neg h2, ← hid h1]
    · by_cases h2 : (tval q.2.ip).isSome
      · rw [if_neg h1, if_pos h2, ← hip h2]
      · rw [if_neg h1, if_neg h2]
  show aset R q.1 _ = R
  rw [hme]
  exact aset_self hr

theorem seedMerge_id (seed R : Registry) (h : SeedAgrees seed R) :
    seedMerge R seed = R := by
  induction seed with
  | nil => rfl
  | cons q t ih =>
    obtain ⟨r, hr, hid, hip⟩ := h q (List.mem_cons_self q t)
    show List.foldl seedStep (seedStep R q) t = R
    rw [seedStep_id R q r hr hid hip]
    exact ih (fun p hp => h p (List.mem_cons_of_mem _ hp))

/-- C2 counterexample: reconciling seed `A = (ip p, id x)` with an empty
registry and a discovery entry `(ip p, id y)` heals `A`'s id to `y`; a
second reconciliation with the same seed and an empty discovery list
overwrites the id back to `x`, so the registry is not returned unchanged. -/
theorem buildConfig_not_idempotent :
    buildConfig [("A", { ip := some "p", id := some "x" })]
      (buildConfig [("A", { ip := some "p", id := some "x" })] []
        [{ ip := "p", id := some "y" }]) [] ≠
      buildConfig [("A", { ip := some "p", id := some "x" })] []
        [{ ip := "p", id := some "y" }] := by
  decide

/-- C2 amended: reconciliation is idempotent on its own output with an
empty discovery list provided the seed's truthy fields already agree with
the produced registry (the counterexample shows the seed overlay otherwise
overwrites discovery-healed fields): re-running `build_config` with the
same seed, the previous output as current registry, and no discovery
returns the registry unchanged. -/
theorem buildConfig_idempotent (seed cfg : Registry) (disc : List DiscEntry)
    (hagree : SeedAgrees seed (buildConfig seed cfg disc)) :
    buildConfig seed (buildConfig seed cfg disc) [] =
      buildConfig seed cfg disc := by
  show cleanup (seedMerge (buildConfig seed cfg disc) seed) =
    buildConfig seed cfg disc
  rw [seedMerge_id seed _ hagree]
  exact cleanup_id _ (cleanup_uniqueIds _) (cleanup_uniqueIps _)

theorem buildConfig_idempotent_witness :
    buildConfig [("A", { ip := none, id := some "x" })]
      (buildConfig [("A", { ip := none, id := some "x" })] [] []) [] =
      buildConfig [("A", { ip := none, id := some "x" })] [] [] := by
  refine buildConfig_idempotent [("A", { ip := none, id := some "x" })] [] [] ?_
  intro p hp
  have hp' := List.mem_singleton.mp hp
  subst hp'
  refine ⟨{ ip := none, id := some "x" }, by decide, fun _ => rfl, ?_⟩
  intro h
  simp [tval] at h

/-! ## Reconciler well-formedness machinery for claim C3 -/

theorem tval_eq_some_iff (o : Option String) (x : String) :
    tval o = some x ↔ o = some x ∧ x ≠ "" := by
  rcases o with _ | s
  · simp [tval]
  · rw [tval]
    by_cases h : s = ""
    · rw [if_pos h]
      subst h
      constructor
      · intro hq
        exact absurd hq (by simp)
      · rintro ⟨h1, h2⟩
        exact absurd (Option.some.inj h1).symm h2
    · rw [if_neg h]
      constructor
      · intro hq
        exact ⟨hq, fun hx => h ((Option.some.inj hq).trans hx)⟩
      · rintro ⟨h1, _⟩
        exact h1

theorem tval_some_of_ne (x : String) (hx : x ≠ "") : tval (some x) = some x := by
  rw [tval, if_neg hx]

theorem byFieldGet_spec (getf : Rec → Option String) (x : String) :
    ∀ (m : Registry) (acc : Option String),
      (m.foldl (fun acc p => if tval (getf p.2) == some x then some p.1 else acc) acc = acc ∧
        ∀ p ∈ m, tval (getf p.2) ≠ some x) ∨
      (∃ p ∈ m,
        m.foldl (fun acc p => if tval (getf p.2) == some x then some p.1 else acc) acc = some p.1 ∧
        tval (getf p.2) = some x) := by
  intro m
  induction m with
  | nil =>
    intro acc
    exact Or.inl ⟨rfl, by simp⟩
  | cons q t ih =>
    intro acc
    rw [List.foldl_cons]
    by_cases hq : tval (getf q.2) = some x
    · rw [if_pos (by simpa using hq)]
      rcases ih (some q.1) with ⟨h1, _⟩ | ⟨p, hp, h1, h2⟩
      · exact Or.inr ⟨q, List.mem_cons_self q t, h1, hq⟩
      · exact Or.inr ⟨p, List.mem_cons_of_mem _ hp, h1, h2⟩
    · rw [if_neg (by simpa using hq)]
      rcases ih acc with ⟨h1, h2⟩ | ⟨p, hp, h1, h2⟩
      · refine Or.inl ⟨h1, ?_⟩
        intro p hp
        rcases List.mem_cons.mp hp with rfl | hmem
        · exact hq
        · exact h2 p hmem
      · exact Or.inr ⟨p, List.mem_cons_of_mem _ hp, h1, h2⟩

theorem byFieldGet_some (getf : Rec → Option String) (m : Registry)
    (x n : String) (h : byFieldGet getf m x = some n) :
    ∃ r, (n, r) ∈ m ∧ tval (getf r) = some x := by
  rcases byFieldGet_spec getf x m none with ⟨h1, _⟩ | ⟨p, hp, h1, h2⟩
  · rw [byFieldGet] at h
    rw [h1] at h
    exact absurd h (by simp)
  · rw [byFieldGet] at h
    rw [h1] at h
    obtain rfl := Option.some.inj h
    exact ⟨p.2, by simpa using hp, h2⟩

theorem byFieldGet_none (getf : Rec → Option String) (m : Registry)
    (x : String) (h : byFieldGet getf m x = none) :
    ∀ p ∈ m, tval (getf p.2) ≠ some x := by
  rcases byFieldGet_spec getf x m none with ⟨_, h2⟩ | ⟨p, hp, h1, h2⟩
  · exact h2
  · rw [byFieldGet, h1] at h
    exact absurd h (by simp)

theorem byFieldGet_eq_some (getf : Rec → Option String) (m : Registry)
    (x k : String) (r : Rec) (hmem : (k, r) ∈ m) (hid : tval (getf r) = some x)
    (huniq : ∀ p ∈ m, tval (getf p.2) = some x → p.1 = k) :
    byFieldGet getf m x = some k := by
  rcases byFieldGet_spec getf x m none with ⟨_, h2⟩ | ⟨p, hp, h1, h2⟩
  · exact absurd hid (h2 (k, r) hmem)
  · rw [byFieldGet, h1]
    rw [huniq p hp h2]

/-- Registry well-formedness: the invariant of §3 of the specification
(unique non-empty ids and ips), together with the dict facts that names are
unique keys and non-empty strings. -/
def Wf (m : Registry) : Prop :=
  NodupKeys m ∧ (∀ p ∈ m, p.1 ≠ "") ∧ UniqueIds m ∧ UniqueIps m

/-- Number of names carrying the non-empty id `x`. -/
def countIds (m : Registry) (x : String) : Nat :=
  (m.filter (fun p => tval p.2.id == some x)).length

theorem countIds_zero (m : Registry) (x : String)
    (h : ∀ p ∈ m, tval p.2.id ≠ some x) : countIds m x = 0 := by
  rw [countIds, List.length_eq_zero]
  rw [List.filter_eq_nil_iff]
  intro p hp
  simpa using h p hp

theorem countIds_one (m : Registry) (x name : String)
    (hnd : NodupKeys m)
    (hex : ∃ r, (name, r) ∈ m ∧ tval r.id = some x)
    (hall : ∀ p ∈ m, tval p.2.id = some x → p.1 = name) :
    countIds m x = 1 := by
  induction m with
  | nil => simp at hex
  | cons q t ih =>
    obtain ⟨r, hmem, hr⟩ := hex
    by_cases hq : tval q.2.id = some x
    · have hqname : q.1 = name := hall q (List.mem_cons_self q t) hq
      have htz : countIds t x = 0 := by
        refine countIds_zero t x ?_
        intro p hp hpx
        have : p.1 = name := hall p (List.mem_cons_of_mem _ hp) hpx
        exact (nodupKeys_cons hnd).2
          (hqname ▸ this ▸ List.mem_map.mpr ⟨p, hp, rfl⟩)
      rw [countIds, List.filter_cons, if_pos (by simpa using hq)]
      rw [List.length_cons]
      have : countIds t x = (t.filter (fun p => tval p.2.id == some x)).length := rfl
      rw [this] at htz
      rw [htz]
    · rcases List.mem_cons.mp hmem with heq | hmemt
      · exact absurd (show tval q.2.id = some x by rw [← congrArg Prod.snd heq]; exact hr) hq
      · rw [countIds, List.filter_cons, if_neg (by simpa using hq)]
        have := ih (nodupKeys_cons hnd).1 ⟨r, hmemt, hr⟩
          (fun p hp hpx => hall p (List.mem_cons_of_mem _ hp) hpx)
        exact this

theorem append_ne_empty_left (s t : String) (h : s ≠ "") : s ++ t ≠ "" := by
  intro q
  have hd : s.data ++ t.data = [] := by
    have hq := congrArg String.data q
    rwa [String.data_append] at hq
  have h1 : s.data = [] := (List.append_eq_nil.mp hd).1
  apply h
  cases s with
  | mk d =>
    simp only [String.data] at h1
    rw [show d = [] from h1]

theorem freshNameAux_ne_empty (m : Registry) (base : String) (hb : base ≠ "") :
    ∀ (fuel i : Nat), freshNameAux m base i fuel ≠ "" := by
  intro fuel
  induction fuel with
  | zero =>
    intro i
    exact append_ne_empty_left _ _ (append_ne_empty_left _ _ hb)
  | succ f ih =>
    intro i
    show (if hasKey m (base ++ "_" ++ toString i) then freshNameAux m base (i + 1) f
          else base ++ "_" ++ toString i) ≠ ""
    by_cases h : hasKey m (base ++ "_" ++ toString i)
    · rw [if_pos h]
      exact ih (i + 1)
    · rw [if_neg h]
      exact append_ne_empty_left _ _ (append_ne_empty_left _ _ hb)

theorem freshName_ne_empty (m : Registry) (base : String) (hb : base ≠ "") :
    freshName m base ≠ "" := by
  rw [freshName]
  by_cases h : hasKey m base
  · rw [if_pos h]
    exact freshNameAux_ne_empty m base hb _ 2
  · rw [if_neg h]
    exact hb

theorem newAutoName_ne_empty (ip : String) (bid : Option String) :
    newAutoName ip bid ≠ "" := by
  rcases h : tval bid with _ | b
  · simp only [newAutoName, h]
    by_cases hip : ip ≠ ""
    · rw [if_pos hip]
      exact append_ne_empty_left _ _ (by decide)
    · rw [if_neg hip]
      decide
  · simp only [newAutoName, h]
    exact append_ne_empty_left _ _ (by decide)

theorem aset_wf_count (M : Registry) (name x ip : String)
    (hwf : Wf M) (hname : name ≠ "") (hx : x ≠ "") (hip : ip ≠ "")
    (hidh : ∀ p ∈ M, tval p.2.id = some x → p.1 = name)
    (hiph : ∀ p ∈ M, tval p.2.ip = some ip → p.1 = name) :
    Wf (aset M name { ip := some ip, id := some x }) ∧
    countIds (aset M name { ip := some ip, id := some x }) x = 1 := by
  obtain ⟨hnd, hne, hui, hup⟩ := hwf
  have hnd' : NodupKeys (aset M name { ip := some ip, id := some x }) :=
    nodupKeys_aset hnd name _
  have hmem := fun p => (mem_aset_iff hnd name ({ ip := some ip, id := some x } : Rec) p).mp
  refine ⟨⟨hnd', ?_, ?_, ?_⟩, ?_⟩
  · intro p hp
    rcases hmem p hp with rfl | ⟨h1, _⟩
    · exact hname
    · exact hne p h1
  · intro p1 h1 p2 h2 hne12 y hy1 hy2
    rcases hmem p1 h1 with rfl | ⟨h1m, h1k⟩
    · rcases hmem p2 h2 with heq | ⟨h2m, h2k⟩
      · exact hne12 (by rw [heq])
      · have hyx : y = x := by
          have := hy1
          rw [show (((name, ({ ip := some ip, id := some x } : Rec)) :
            String × Rec).2.id) = some x from rfl, tval_some_of_ne x hx] at this
          exact (Option.some.inj this).symm
        exact h2k (hidh p2 h2m (hyx ▸ hy2))
    · rcases hmem p2 h2 with rfl | ⟨h2m, h2k⟩
      · have hyx : y = x := by
          have := hy2
          rw [show (((name, ({ ip := some ip, id := some x } : Rec)) :
            String × Rec).2.id) = some x from rfl, tval_some_of_ne x hx] at this
          exact (Option.some.inj this).symm
        exact h1k (hidh p1 h1m (hyx ▸ hy1))
      · exact hui p1 h1m p2 h2m hne12 y hy1 hy2
  · intro p1 h1 p2 h2 hne12 y hy1 hy2
    rcases hmem p1 h1 with rfl | ⟨h1m, h1k⟩
    · rcases hmem p2 h2 with heq | ⟨h2m, h2k⟩
      · exact hne12 (by rw [heq])
      · have hyx : y = ip := by
          have := hy1
          rw [show (((name, ({ ip := some ip, id := some x } : Rec)) :
            String × Rec).2.ip) = some ip from rfl, tval_some_of_ne ip hip] at this
          exact (Option.some.inj this).symm
        exact h2k (hiph p2 h2m (hyx ▸ hy2))
    · rcases hmem p2 h2 with rfl | ⟨h2m, h2k⟩
      · have hyx : y = ip := by
          have := hy2
          rw [show (((name, ({ ip := some ip, id := some x } : Rec)) :
            String × Rec).2.ip) = some ip from rfl, tval_some_of_ne ip hip] at this
          exact (Option.some.inj this).symm
        exact h1k (hiph p1 h1m (hyx ▸ hy1))
      · exact hup p1 h1m p2 h2m hne12 y hy1 hy2
  · refine countIds_one _ x name hnd' ?_ ?_
    · exact ⟨{ ip := some ip, id := some x },
        mem_aset_self M name _, tval_some_of_ne x hx⟩
    · intro p hp hpx
      rcases hmem p hp with rfl | ⟨h1m, h1k⟩
      · rfl
      · exact absurd (hidh p h1m hpx) h1k

theorem id_holder_unique (m : Registry) (hui : UniqueIds m) (x k : String)
    (rk : Rec) (hmem : (k, rk) ∈ m) (hk : tval rk.id = some x) :
    ∀ p ∈ m, tval p.2.id = some x → p.1 = k := by
  intro p hp hpx
  by_contra hne
  exact hui p hp (k, rk) hmem hne x hpx hk

theorem ip_holder_unique (m : Registry) (hup : UniqueIps m) (x k : String)
    (rk : Rec) (hmem : (k, rk) ∈ m) (hk : tval rk.ip = some x) :
    ∀ p ∈ m, tval p.2.ip = some x → p.1 = k := by
  intro p hp hpx
  by_contra hne
  exact hup p hp (k, rk) hmem hne x hpx hk

/-- The record kept for the id-resolved name by `consolidate`: any field the
kept record is missing is copied from the dropped record. -/
def consolRec (rk rd : Rec) : Rec :=
  { ip := if (tval rk.ip).isNone ∧ (tval rd.ip).isSome then rd.ip else rk.ip,
    id := if (tval rk.id).isNone ∧ (tval rd.id).isSome then rd.id else rk.id }

theorem consolidate_eq (m : Registry) (k d : String) (rk rd : Rec)
    (hk : aget m k = some rk) (hd : aget m d = some rd) :
    consolidate m k d = apop (aset m k (consolRec rk rd)) d := by
  rw [consolidate, hk, hd]
  simp only [Option.getD_some, consolRec]
  rcases h1 : tval rk.ip with _ | v1 <;> rcases h2 : tval rd.ip with _ | v2 <;>
    rcases h3 : tval rk.id with _ | w1 <;> rcases h4 : tval rd.id with _ | w2 <;>
    simp [h1, h2, h3, h4]

theorem nodupKeys_consolidate {m : Registry} (hm : NodupKeys m)
    (keep drop : String) : NodupKeys (consolidate m keep drop) :=
  nodupKeys_apop (nodupKeys_aset hm _ _) _

theorem mem_consolidate_iff (m : Registry) (hnd : NodupKeys m) (k d : String)
    (rk rd : Rec) (hk : aget m k = some rk) (hd : aget m d = some rd)
    (p : String × Rec) :
    p ∈ consolidate m k d ↔
      (p = (k, consolRec rk rd) ∨ (p ∈ m ∧ p.1 ≠ k)) ∧ p.1 ≠ d := by
  rw [consolidate_eq m k d rk rd hk hd, mem_apop_iff]
  constructor
  · rintro ⟨h1, h2⟩
    exact ⟨(mem_aset_iff hnd k _ p).mp h1, h2⟩
  · rintro ⟨h1, h2⟩
    exact ⟨(mem_aset_iff hnd k _ p).mpr h1, h2⟩

theorem pyOrName_left (a b : Option String) (n : String) (h : tval a = some n) :
    tval (pyOrName a b) = some n := by
  simp only [pyOrName, h]
  exact tval_some_of_ne n ((tval_eq_some_iff a n).mp h).2

theorem pyOrName_right (a b : Option String) (h : tval a = none) :
    pyOrName a b = b := by
  simp only [pyOrName, h]

theorem discResolve_fresh (m2 : Registry) (e : DiscEntry)
    (hname : tval (pyOrName (byIdLookup m2 e.id) (byIpGet m2 e.ip)) = none) :
    discResolve m2 e =
      aset m2 (freshName m2 (newAutoName e.ip e.id)) { ip := some e.ip, id := e.id } := by
  simp only [discResolve, hname]

theorem discResolve_patch (m2 : Registry) (e : DiscEntry) (x n : String) (r : Rec)
    (hid : e.id = some x) (hx : x ≠ "") (hip : e.ip ≠ "")
    (hname : tval (pyOrName (byIdLookup m2 e.id) (byIpGet m2 e.ip)) = some n)
    (hget : aget m2 n = some r) :
    discResolve m2 e = aset m2 n { ip := some e.ip, id := some x } := by
  have h1 : (tval e.id).isSome := by
    rw [hid, tval_some_of_ne x hx]
    rfl
  simp only [discResolve, hname]
  simp only [hget, Option.getD_some, if_pos h1, if_pos hip, hid]
  rw [tval_some_of_ne x hx]
  simp

theorem discStep_case_none_none (m : Registry) (e : DiscEntry) (x : String)
    (hwf : Wf m) (hid : e.id = some x) (hx : x ≠ "") (hip : e.ip ≠ "")
    (hbyid : byIdGet m x = none) (hbyip : byIpGet m e.ip = none) :
    Wf (discStep m e) ∧ countIds (discStep m e) x = 1 := by
  have hcons : discConsolidate m e = m := by
    simp only [discConsolidate, hid, byIdLookup, hbyid, tval]
  have hname : tval (pyOrName (byIdLookup m e.id) (byIpGet m e.ip)) = none := by
    rw [hid]
    show tval (pyOrName (byIdGet m x) (byIpGet m e.ip)) = none
    rw [hbyid, hbyip]
    rfl
  have hstep : discStep m e =
      aset m (freshName m (newAutoName e.ip e.id)) { ip := some e.ip, id := e.id } := by
    rw [discStep, hcons]
    exact discResolve_fresh m e hname
  rw [hstep, hid]
  exact aset_wf_count m _ x e.ip hwf
    (freshName_ne_empty _ _ (newAutoName_ne_empty _ _)) hx hip
    (fun p hp hpx => absurd hpx (byFieldGet_none _ m x hbyid p hp))
    (fun p hp hpx => absurd hpx (byFieldGet_none _ m e.ip hbyip p hp))

theorem discStep_case_none_some (m : Registry) (e : DiscEntry) (x d : String)
    (hwf : Wf m) (hid : e.id = some x) (hx : x ≠ "") (hip : e.ip ≠ "")
    (hbyid : byIdGet m x = none) (hbyip : byIpGet m e.ip = some d) :
    Wf (discStep m e) ∧ countIds (discStep m e) x = 1 := by
  obtain ⟨hnd, hne, hui, hup⟩ := hwf
  obtain ⟨rd, hdm, hdip⟩ := byFieldGet_some _ m e.ip d hbyip
  have hdne : d ≠ "" := hne (d, rd) hdm
  have hcons : discConsolidate m e = m := by
    simp only [discConsolidate, hid, byIdLookup, hbyid, tval]
  have hname : tval (pyOrName (byIdLookup m e.id) (byIpGet m e.ip)) = some d := by
    rw [hid]
    show tval (pyOrName (byIdGet m x) (byIpGet m e.ip)) = some d
    rw [pyOrName_right _ _ (by rw [hbyid]; rfl), hbyip]
    exact tval_some_of_ne d hdne
  have hstep : discStep m e = aset m d { ip := some e.ip, id := some x } := by
    rw [discStep, hcons]
    exact discResolve_patch m e x d rd hid hx hip hname (aget_of_mem_nodup hnd hdm)
  rw [hstep]
  exact aset_wf_count m d x e.ip ⟨hnd, hne, hui, hup⟩ hdne hx hip
    (fun p hp hpx => absurd hpx (byFieldGet_none _ m x hbyid p hp))
    (ip_holder_unique m hup e.ip d rd hdm hdip)

theorem discStep_case_id (m : Registry) (e : DiscEntry) (x k : String)
    (hwf : Wf m) (hid : e.id = some x) (hx : x ≠ "") (hip : e.ip ≠ "")
    (hbyid : byIdGet m x = some k)
    (hipcase : byIpGet m e.ip = none ∨ byIpGet m e.ip = some k) :
    Wf (discStep m e) ∧ countIds (discStep m e) x = 1 := by
  obtain ⟨hnd, hne, hui, hup⟩ := hwf
  obtain ⟨rk, hkm, hkid⟩ := byFieldGet_some _ m x k hbyid
  have hkne : k ≠ "" := hne (k, rk) hkm
  have hcons : discConsolidate m e = m := by
    rcases hipcase with hbyip | hbyip
    · simp only [discConsolidate, hid, byIdLookup, hbyid, if_pos hip, hbyip,
        tval, if_neg hkne]
    · simp only [discConsolidate, hid, byIdLookup, hbyid, if_pos hip, hbyip,
        tval, if_neg hkne]
      simp
  have hname : tval (pyOrName (byIdLookup m e.id) (byIpGet m e.ip)) = some k := by
    rw [hid]
    show tval (pyOrName (byIdGet m x) (byIpGet m e.ip)) = some k
    exact pyOrName_left _ _ k (by rw [hbyid]; exact tval_some_of_ne k hkne)
  have hstep : discStep m e = aset m k { ip := some e.ip, id := some x } := by
    rw [discStep, hcons]
    exact discResolve_patch m e x k rk hid hx hip hname (aget_of_mem_nodup hnd hkm)
  rw [hstep]
  refine aset_wf_count m k x e.ip ⟨hnd, hne, hui, hup⟩ hkne hx hip
    (id_holder_unique m hui x k rk hkm hkid) ?_
  rcases hipcase with hbyip | hbyip
  · exact fun p hp hpx => absurd hpx (byFieldGet_none _ m e.ip hbyip p hp)
  · obtain ⟨rk2, hk2m, hk2ip⟩ := byFieldGet_some _ m e.ip k hbyip
    exact ip_holder_unique m hup e.ip k rk2 hk2m hk2ip

theorem discStep_case_consolidate (m : Registry) (e : DiscEntry) (x k d : String)
    (hwf : Wf m) (hid : e.id = some x) (hx : x ≠ "") (hip : e.ip ≠ "")
    (hbyid : byIdGet m x = some k) (hbyip : byIpGet m e.ip = some d)
    (hkd : k ≠ d) :
    Wf (discStep m e) ∧ countIds (discStep m e) x = 1 ∧
    hasKey (discStep m e) k = true ∧ hasKey (discStep m e) d = false ∧
    aget (discStep m e) k = some { ip := some e.ip, id := some x } := by
  obtain ⟨hnd, hne, hui, hup⟩ := hwf
  obtain ⟨rk, hkm, hkid⟩ := byFieldGet_some _ m x k hbyid
  obtain ⟨rd, hdm, hdip⟩ := byFieldGet_some _ m e.ip d hbyip
  have hkne : k ≠ "" := hne (k, rk) hkm
  have hdne : d ≠ "" := hne (d, rd) hdm
  have hkget : aget m k = some rk := aget_of_mem_nodup hnd hkm
  have hdget : aget m d = some rd := aget_of_mem_nodup hnd hdm
  have hcons : discConsolidate m e = consolidate m k d := by
    simp only [discConsolidate, hid, byIdLookup, hbyid, if_pos hip, hbyip,
      tval, if_neg hkne, if_neg hdne]
    simp [hkd]
  have hnd2 : NodupKeys (consolidate m k d) := nodupKeys_consolidate hnd k d
  have hmem2 := fun p => mem_consolidate_iff m hnd k d rk rd hkget hdget p
  have hcid : (consolRec rk rd).id = rk.id := by
    rw [consolRec]
    simp [hkid]
  have hkmem2 : (k, consolRec rk rd) ∈ consolidate m k d :=
    (hmem2 _).mpr ⟨Or.inl rfl, hkd⟩
  have hcidx : tval (consolRec rk rd).id = some x := by
    rw [hcid]
    exact hkid
  have huniq2id : ∀ p ∈ consolidate m k d, tval p.2.id = some x → p.1 = k := by
    intro p hp hpx
    rcases (hmem2 p).mp hp with ⟨h1 | ⟨h1, _⟩, _⟩
    · rw [h1]
    · exact id_holder_unique m hui x k rk hkm hkid p h1 hpx
  have hbyid2 : byIdGet (consolidate m k d) x = some k :=
    byFieldGet_eq_some _ _ x k (consolRec rk rd) hkmem2 hcidx huniq2id
  have hname : tval (pyOrName (byIdLookup (consolidate m k d) e.id)
      (byIpGet (consolidate m k d) e.ip)) = some k := by
    rw [hid]
    show tval (pyOrName (byIdGet (consolidate m k d) x)
      (byIpGet (consolidate m k d) e.ip)) = some k
    exact pyOrName_left _ _ k (by rw [hbyid2]; exact tval_some_of_ne k hkne)
  have hget2 : aget (consolidate m k d) k = some (consolRec rk rd) :=
    aget_of_mem_nodup hnd2 hkmem2
  have hstep : discStep m e =
      aset (consolidate m k d) k { ip := some e.ip, id := some x } := by
    rw [discStep, hcons]
    exact discResolve_patch _ e x k _ hid hx hip hname hget2
  have hipuniq2 : ∀ p ∈ consolidate m k d, tval p.2.ip = some e.ip → p.1 = k := by
    intro p hp hpx
    rcases (hmem2 p).mp hp with ⟨h1 | ⟨h1, _⟩, h3⟩
    · rw [h1]
    · exact absurd (ip_holder_unique m hup e.ip d rd hdm hdip p h1 hpx) h3
  have hwf2 : Wf (consolidate m k d) := by
    refine ⟨hnd2, ?_, ?_, ?_⟩
    · intro p hp
      rcases (hmem2 p).mp hp with ⟨h1 | ⟨h1, _⟩, _⟩
      · rw [h1]
        exact hkne
      · exact hne p h1
    · intro p1 h1 p2 h2 hne12 y hy1 hy2
      rcases (hmem2 p1).mp h1 with ⟨e1 | ⟨e1, k1⟩, d1⟩
      · rcases (hmem2 p2).mp h2 with ⟨e2 | ⟨e2, k2⟩, d2⟩
        · exact hne12 (by rw [e1, e2])
        · have hyx : y = x := by
            rw [e1] at hy1
            rw [hcidx] at hy1
            exact (Option.some.inj hy1).symm
          exact k2 (id_holder_unique m hui x k rk hkm hkid p2 e2 (hyx ▸ hy2))
      · rcases (hmem2 p2).mp h2 with ⟨e2 | ⟨e2, k2⟩, d2⟩
        · have hyx : y = x := by
            rw [e2] at hy2
            rw [hcidx] at hy2
            exact (Option.some.inj hy2).symm
          exact k1 (id_holder_unique m hui x k rk hkm hkid p1 e1 (hyx ▸ hy1))
        · exact hui p1 e1 p2 e2 hne12 y hy1 hy2
    · intro p1 h1 p2 h2 hne12 y hy1 hy2
      have hipcase : (consolRec rk rd).ip = rd.ip ∨ (consolRec rk rd).ip = rk.ip := by
        have hfield : (consolRec rk rd).ip =
            (if (tval rk.ip).isNone ∧ (tval rd.ip).isSome then rd.ip else rk.ip) := rfl
        rw [hfield]
        by_cases c : (tval rk.ip).isNone ∧ (tval rd.ip).isSome
        · exact Or.inl (if_pos c)
        · exact Or.inr (if_neg c)
      have key : ∀ p ∈ m, p.1 ≠ k → p.1 ≠ d →
          tval (consolRec rk rd).ip = some y → tval p.2.ip = some y → False := by
        intro p hpm hpk hpd hcy hpy
        rcases hipcase with hc | hc
        · rw [hc] at hcy
          have hyip : y = e.ip := by
            rw [hdip] at hcy
            exact (Option.some.inj hcy).symm
          exact hpd (ip_holder_unique m hup e.ip d rd hdm hdip p hpm (hyip ▸ hpy))
        · rw [hc] at hcy
          exact hpk (ip_holder_unique m hup y k rk hkm hcy p hpm hpy)
      rcases (hmem2 p1).mp h1 with ⟨e1 | ⟨e1, k1⟩, d1⟩
      · rcases (hmem2 p2).mp h2 with ⟨e2 | ⟨e2, k2⟩, d2⟩
        · exact hne12 (by rw [e1, e2])
        · refine key p2 e2 k2 d2 ?_ hy2
          rw [e1] at hy1
          exact hy1
      · rcases (hmem2 p2).mp h2 with ⟨e2 | ⟨e2, k2⟩, d2⟩
        · refine key p1 e1 k1 d1 ?_ hy1
          rw [e2] at hy2
          exact hy2
        · exact hup p1 e1 p2 e2 hne12 y hy1 hy2
  obtain ⟨hwf3, hcnt3⟩ := aset_wf_count (consolidate m k d) k x e.ip hwf2 hkne hx hip
    huniq2id hipuniq2
  refine ⟨by rw [hstep]; exact hwf3, by rw [hstep]; exact hcnt3, ?_, ?_, ?_⟩
  · rw [hstep, hasKey_eq_isSome_aget, aget_aset_self]
    rfl
  · rw [hstep]
    rcases hhk : hasKey (aset (consolidate m k d) k
      { ip := some e.ip, id := some x }) d with _ | _
    · rfl
    · exfalso
      have hmm := (hasKey_iff_mem_akeys _ d).mp hhk
      rcases List.mem_map.mp hmm with ⟨p, hp, hpk⟩
      rcases (mem_aset_iff hnd2 k _ p).mp hp with heq | ⟨hpm, _⟩
      · apply hkd
        rw [← hpk, heq]
      · exact (((hmem2 p).mp hpm).2) hpk
  · rw [hstep, aget_aset_self]

theorem discStep_wf_count (m : Registry) (e : DiscEntry) (x : String)
    (hwf : Wf m) (hid : e.id = some x) (hx : x ≠ "") (hip : e.ip ≠ "") :
    Wf (discStep m e) ∧ countIds (discStep m e) x = 1 := by
  rcases hbyid : byIdGet m x with _ | k
  · rcases hbyip : byIpGet m e.ip with _ | d
    · exact discStep_case_none_none m e x hwf hid hx hip hbyid hbyip
    · exact discStep_case_none_some m e x d hwf hid hx hip hbyid hbyip
  · rcases hbyip : byIpGet m e.ip with _ | d
    · exact discStep_case_id m e x k hwf hid hx hip hbyid (Or.inl hbyip)
    · by_cases hkd : k = d
      · exact discStep_case_id m e x k hwf hid hx hip hbyid
          (Or.inr (by rw [hbyip, hkd]))
      · obtain ⟨w1, w2, _⟩ :=
          discStep_case_consolidate m e x k d hwf hid hx hip hbyid hbyip hkd
        exact ⟨w1, w2⟩

/-- C3: two discovery events with the same non-empty id under two different
IPs, processed against a well-formed registry either in one reconciliation
or across two, leave exactly one name carrying that id; and whenever the
id and the ip resolve to two different existing names, the name resolved by
id is kept with every missing field copied from the dropped record (and then
patched with the freshly discovered id and ip), while the name resolved by
ip is deleted. -/
theorem discovery_same_id_converges (cfg : Registry) (e1 e2 : DiscEntry)
    (x : String) (hwf : Wf cfg)
    (h1 : e1.id = some x) (h2 : e2.id = some x) (hx : x ≠ "")
    (hip1 : e1.ip ≠ "") (hip2 : e2.ip ≠ "") (hips : e1.ip ≠ e2.ip) :
    countIds (buildConfig [] cfg [e1, e2]) x = 1 ∧
    countIds (buildConfig [] (buildConfig [] cfg [e1]) [e2]) x = 1 ∧
    (∀ (M : Registry) (e : DiscEntry) (k d : String) (rk rd : Rec),
      Wf M → e.id = some x → e.ip ≠ "" →
      byIdGet M x = some k → byIpGet M e.ip = some d → k ≠ d →
      aget M k = some rk → aget M d = some rd →
      (aget (consolidate M k d) k = some (consolRec rk rd) ∧
        consolRec rk rd =
          { ip := if (tval rk.ip).isNone ∧ (tval rd.ip).isSome then rd.ip else rk.ip,
            id := if (tval rk.id).isNone ∧ (tval rd.id).isSome then rd.id else rk.id } ∧
        hasKey (consolidate M k d) d = false) ∧
      (hasKey (discStep M e) k = true ∧ hasKey (discStep M e) d = false ∧
        aget (discStep M e) k = some { ip := some e.ip, id := some x })) := by
  obtain ⟨hwf1, hcnt1⟩ := discStep_wf_count cfg e1 x hwf h1 hx hip1
  obtain ⟨hwf2, hcnt2⟩ := discStep_wf_count (discStep cfg e1) e2 x hwf1 h2 hx hip2
  have hclean2 : cleanup (discStep (discStep cfg e1) e2) =
      discStep (discStep cfg e1) e2 :=
    cleanup_id _ hwf2.2.2.1 hwf2.2.2.2
  refine ⟨?_, ?_, ?_⟩
  · show countIds (cleanup (discStep (discStep (seedMerge cfg []) e1) e2)) x = 1
    rw [show seedMerge cfg [] = cfg from rfl, hclean2]
    exact hcnt2
  · have hS1 : buildConfig [] cfg [e1] = discStep cfg e1 := by
      show cleanup (discStep (seedMerge cfg []) e1) = discStep cfg e1
      rw [show seedMerge cfg [] = cfg from rfl]
      exact cleanup_id _ hwf1.2.2.1 hwf1.2.2.2
    rw [hS1]
    show countIds (cleanup (discStep (seedMerge (discStep cfg e1) []) e2)) x = 1
    rw [show seedMerge (discStep cfg e1) [] = discStep cfg e1 from rfl, hclean2]
    exact hcnt2
  · intro M e k d rk rd hMwf hied hieip hMbyid hMbyip hkd hkget hdget
    obtain ⟨w1, w2, w3, w4, w5⟩ :=
      discStep_case_consolidate M e x k d hMwf hied hx hieip hMbyid hMbyip hkd
    have hMnd : NodupKeys M := hMwf.1
    have hnd2 : NodupKeys (consolidate M k d) := nodupKeys_consolidate hMnd k d
    have hkmem2 : (k, consolRec rk rd) ∈ consolidate M k d :=
      (mem_consolidate_iff M hMnd k d rk rd hkget hdget _).mpr ⟨Or.inl rfl, hkd⟩
    refine ⟨⟨aget_of_mem_nodup hnd2 hkmem2, rfl, ?_⟩, w3, w4, w5⟩
    rcases hhk : hasKey (consolidate M k d) d with _ | _
    · rfl
    · exfalso
      have hmm := (hasKey_iff_mem_akeys _ d).mp hhk
      rcases List.mem_map.mp hmm with ⟨p, hp, hpk⟩
      exact ((mem_consolidate_iff M hMnd k d rk rd hkget hdget p).mp hp).2 hpk

theorem discovery_same_id_converges_witness :
    countIds (buildConfig [] []
      [{ ip := "1.1.1.1", id := some "abc123" },
       { ip := "2.2.2.2", id := some "abc123" }]) "abc123" = 1 := by
  have hwf : Wf ([] : Registry) :=
    ⟨List.nodup_nil, fun p hp => absurd hp (List.not_mem_nil p),
     fun p hp => absurd hp (List.not_mem_nil p),
     fun p hp => absurd hp (List.not_mem_nil p)⟩
  exact (discovery_same_id_converges [] _ _ "abc123" hwf rfl rfl (by decide)
    (by decide) (by decide) (by decide)).1
